import Mathlib

/-!
Shallow embedding of the reqwless HTTP client core (`src/client.rs`).

Rust strings (`&str`) and byte slices (`&[u8]`) are modelled as `List Nat`
(UTF-8 bytes, each `< 256`).  Fallible Rust operations that can panic
(out-of-bounds or non-char-boundary string slicing, `slice::windows(0)`,
unsigned-integer underflow) are modelled with an explicit `panic` outcome.
The asynchronous transport is modelled as a deterministic connection state
`Conn` carrying the bytes the peer will send, a schedule of per-read chunk
sizes (arbitrary partial reads), per-write outcomes, and counters of issued
reads and writes.  The two read loops of `read_response` take a fuel
parameter; running out of fuel is the explicit `diverge` outcome.
-/

namespace Reqwless

/-- Result of a pure computation that can panic (Rust index/slice panics). -/
inductive PRes (α : Type) : Type
  | ok (a : α)
  | panic
  deriving DecidableEq, Repr

/-- Errors returned by the client (`enum Error` in `client.rs`).  The
transport's `embedded_io::ErrorKind` is outside the repository; its values
are modelled as plain `Nat` tags carried verbatim. -/
inductive Error : Type
  | network (e : Nat)
  | codec
  deriving DecidableEq, Repr

/-- Outcome of running a piece of the client: normal result, `Error`,
panic, or non-termination (fuel exhausted in the model). -/
inductive RR (α : Type) : Type
  | ok (a : α)
  | err (e : Error)
  | panic
  | diverge
  deriving DecidableEq, Repr

/-- Modelled from the spec: the enumerated HTTP `Status` lives in the
missing `request.rs`; the spec says it is a closed set of standard codes
and that unknown/unsupported codes map to the `BadRequest` sentinel. -/
inductive Status : Type
  | Ok
  | Created
  | Accepted
  | NoContent
  | BadRequest
  | Unauthorized
  | Forbidden
  | NotFound
  | InternalServerError
  deriving DecidableEq, Repr

/-- Modelled from the spec: `From<u32> for Status` (missing `request.rs`);
codes outside the supported set map to the default `BadRequest` sentinel. -/
def statusFrom (n : Nat) : Status :=
  if n = 200 then .Ok
  else if n = 201 then .Created
  else if n = 202 then .Accepted
  else if n = 204 then .NoContent
  else if n = 400 then .BadRequest
  else if n = 401 then .Unauthorized
  else if n = 403 then .Forbidden
  else if n = 404 then .NotFound
  else if n = 500 then .InternalServerError
  else .BadRequest

/-- Modelled from the spec: the request method enumeration (missing
`request.rs`), a closed set with its wire spelling. -/
inductive Method : Type
  | GET
  | POST
  | PUT
  | DELETE
  deriving DecidableEq, Repr

/-- Modelled from the spec: `Method::as_str` (missing `request.rs`). -/
def methodStr (m : Method) : List Nat :=
  match m with
  | .GET => [71, 69, 84]
  | .POST => [80, 79, 83, 84]
  | .PUT => [80, 85, 84]
  | .DELETE => [68, 69, 76, 69, 84, 69]

/-- Modelled from the spec: the `Auth` descriptor (missing `request.rs`):
one variant, Basic credentials. -/
inductive Auth : Type
  | basic (username : List Nat) (password : List Nat)
  deriving DecidableEq, Repr

/-- Modelled from the spec: the `Request` description (missing
`request.rs`).  `content_type` is the wire string of the content-type
descriptor (`ContentType::as_str`). -/
structure Request : Type where
  method : Method
  path : Option (List Nat)
  auth : Option Auth
  content_type : Option (List Nat)
  payload : Option (List Nat)
  extra_headers : Option (List (List Nat × List Nat))
  deriving DecidableEq, Repr

/-- Modelled from the spec: the `Response` view (missing `request.rs`):
status, optional content-type view, optional payload view.  The borrowed
slices are modelled by storing the bytes themselves. -/
structure Response : Type where
  status : Status
  content_type : Option (List Nat)
  payload : Option (List Nat)
  deriving DecidableEq, Repr

/-- The three header-parsing locals of `read_response`
(`status`, `content_type`, `content_length`). -/
structure HdrState : Type where
  status : Status
  content_type : Option (List Nat)
  content_length : Nat
  deriving DecidableEq, Repr

/-- Bytes of an ASCII string literal (for ASCII text, code points and
UTF-8 bytes coincide). -/
def ascii (s : String) : List Nat := s.data.map Char.toNat

/-- ASCII lower-casing of one byte (`u8::to_ascii_lowercase`). -/
def asciiLower (b : Nat) : Nat := if 65 ≤ b ∧ b ≤ 90 then b + 32 else b

/-- `str::eq_ignore_ascii_case`: equal lengths and byte-wise equality up
to ASCII case, i.e. equality of the ASCII-lowered byte lists. -/
def eqIgnoreAsciiCase (a b : List Nat) : Bool :=
  a.map asciiLower == b.map asciiLower

/-- A UTF-8 continuation byte (`0x80..=0xBF`). -/
def isCont (b : Nat) : Bool := 128 ≤ b && b ≤ 191

/-- Decode the first UTF-8 scalar of a byte list: the code point and the
number of bytes consumed, or `none` for invalid UTF-8.  Follows the
standard table (overlongs and surrogates rejected), as Rust's validator
does. -/
def utf8DecodeFirst : List Nat → Option (Nat × Nat)
  | [] => none
  | b :: rest =>
    if b ≤ 127 then some (b, 1)
    else if 194 ≤ b && b ≤ 223 then
      match rest with
      | b1 :: _ => if isCont b1 then some ((b - 192) * 64 + (b1 - 128), 2) else none
      | [] => none
    else if b = 224 then
      match rest with
      | b1 :: b2 :: _ =>
        if (160 ≤ b1 && b1 ≤ 191) && isCont b2 then
          some ((b - 224) * 4096 + (b1 - 128) * 64 + (b2 - 128), 3)
        else none
      | _ => none
    else if (225 ≤ b && b ≤ 236) || b = 238 || b = 239 then
      match rest with
      | b1 :: b2 :: _ =>
        if isCont b1 && isCont b2 then
          some ((b - 224) * 4096 + (b1 - 128) * 64 + (b2 - 128), 3)
        else none
      | _ => none
    else if b = 237 then
      match rest with
      | b1 :: b2 :: _ =>
        if (128 ≤ b1 && b1 ≤ 159) && isCont b2 then
          some ((b - 224) * 4096 + (b1 - 128) * 64 + (b2 - 128), 3)
        else none
      | _ => none
    else if b = 240 then
      match rest with
      | b1 :: b2 :: b3 :: _ =>
        if (144 ≤ b1 && b1 ≤ 191) && isCont b2 && isCont b3 then
          some ((b - 240) * 262144 + (b1 - 128) * 4096 + (b2 - 128) * 64 + (b3 - 128), 4)
        else none
      | _ => none
    else if 241 ≤ b && b ≤ 243 then
      match rest with
      | b1 :: b2 :: b3 :: _ =>
        if isCont b1 && isCont b2 && isCont b3 then
          some ((b - 240) * 262144 + (b1 - 128) * 4096 + (b2 - 128) * 64 + (b3 - 128), 4)
        else none
      | _ => none
    else if b = 244 then
      match rest with
      | b1 :: b2 :: b3 :: _ =>
        if (128 ≤ b1 && b1 ≤ 143) && isCont b2 && isCont b3 then
          some ((b - 240) * 262144 + (b1 - 128) * 4096 + (b2 - 128) * 64 + (b3 - 128), 4)
        else none
      | _ => none
    else none

/-- UTF-8 validity, by repeated decoding; the fuel is the list length
(each step consumes at least one byte). -/
def validUtf8Aux : Nat → List Nat → Bool
  | _, [] => true
  | 0, _ :: _ => false
  | f + 1, l =>
    match utf8DecodeFirst l with
    | none => false
    | some (_, k) => validUtf8Aux f (l.drop k)

/-- `core::str::from_utf8` succeeds exactly on valid UTF-8. -/
def validUtf8 (l : List Nat) : Bool := validUtf8Aux l.length l

/-- Unicode `White_Space` code points (`char::is_whitespace`). -/
def isWhitespaceCp (c : Nat) : Bool :=
  (9 ≤ c && c ≤ 13) || c = 32 || c = 133 || c = 160 || c = 5760 ||
  (8192 ≤ c && c ≤ 8202) || c = 8232 || c = 8233 || c = 8239 || c = 8287 || c = 12288

/-- `str::trim_start`, dropping leading whitespace characters; fuel is the
byte length. -/
def trimStartAux : Nat → List Nat → List Nat
  | _, [] => []
  | 0, l => l
  | f + 1, l =>
    match utf8DecodeFirst l with
    | some (c, k) => if isWhitespaceCp c then trimStartAux f (l.drop k) else l
    | none => l

/-- `str::trim_start` on the UTF-8 bytes of a string. -/
def trimStart (l : List Nat) : List Nat := trimStartAux l.length l

/-- `str::is_char_boundary`. -/
def isCharBoundary (s : List Nat) (i : Nat) : Bool :=
  if i = 0 then true
  else
    match s[i]? with
    | none => i == s.length
    | some b => b ≤ 127 || 192 ≤ b

/-- Rust string slicing `&s[a..b]` on the UTF-8 bytes: panics unless
`a ≤ b` and both ends are char boundaries (a boundary implies being in
range).  `&s[a..]` is `sliceStr s a s.length`. -/
def sliceStr (s : List Nat) (a b : Nat) : PRes (List Nat) :=
  if a ≤ b && isCharBoundary s a && isCharBoundary s b then
    .ok ((s.drop a).take (b - a))
  else .panic

/-- Digit-accumulating core of Rust's unsigned integer `from_str`:
`none` unless every byte is an ASCII digit. -/
def parseDecAux : List Nat → Nat → Option Nat
  | [], acc => some acc
  | d :: rest, acc =>
    if 48 ≤ d && d ≤ 57 then parseDecAux rest (acc * 10 + (d - 48)) else none

/-- Rust `from_str` for an unsigned integer type with maximum `bound`:
an optional leading `+`, then one or more ASCII digits, value within
bounds; anything else is a `ParseIntError`. -/
def parseUN (bound : Nat) (s : List Nat) : Option Nat :=
  let t := match s with
    | 43 :: r => r
    | _ => s
  if t.isEmpty then none
  else
    match parseDecAux t 0 with
    | none => none
    | some v => if v ≤ bound then some v else none

/-- `str::parse::<u32>` (status code). -/
def parseU32 (s : List Nat) : Option Nat := parseUN 4294967295 s

/-- `str::parse::<usize>` (content length), 64-bit target. -/
def parseUsize (s : List Nat) : Option Nat := parseUN 18446744073709551615 s

/-- Decimal digits of a `Nat` (the `write!(s, "{}", n)` formatting of a
length); fuel-based recursion on `n / 10`. -/
def natDecAux : Nat → Nat → List Nat
  | 0, _ => []
  | f + 1, n => if n < 10 then [48 + n] else natDecAux f (n / 10) ++ [48 + n % 10]

/-- Decimal representation of a `Nat` as ASCII bytes. -/
def natDec (n : Nat) : List Nat := natDecAux (n + 1) n

/-- One output character of standard base64. -/
def b64Char (n : Nat) : Nat :=
  if n < 26 then 65 + n
  else if n < 52 then 97 + (n - 26)
  else if n < 62 then 48 + (n - 52)
  else if n = 62 then 43
  else 47

/-- `base64::encode_config_slice` with the `STANDARD` (padded) config;
external collaborator of the client, used for Basic auth. -/
def base64Encode : List Nat → List Nat
  | [] => []
  | [a] => [b64Char (a / 4), b64Char (a % 4 * 16), 61, 61]
  | [a, b] => [b64Char (a / 4), b64Char (a % 4 * 16 + b / 16), b64Char (b % 16 * 4), 61]
  | a :: b :: d :: rest =>
    [b64Char (a / 4), b64Char (a % 4 * 16 + b / 16), b64Char (b % 16 * 4 + d / 64),
      b64Char (d % 64)] ++ base64Encode rest

/-- Window scan of `find_sequence`: try each start offset in turn,
returning the first whose window equals the needle.  Rust's
`windows` iterator stops once fewer than `needle.len()` elements remain;
the extra tail positions checked here cannot match (the window is too
short), so the result is unchanged. -/
def findSeqGo (needle : List Nat) : List Nat → Nat → Option Nat
  | [], p => if ([] : List Nat).take needle.length == needle then some p else none
  | a :: t, p =>
    if (a :: t).take needle.length == needle then some p else findSeqGo needle t (p + 1)

/-- `find_sequence(haystack, needle)` from `client.rs`.  When the haystack
is at least as long as the needle but the needle is empty, the source
calls `haystack.windows(0)`, which panics (`windows` requires a non-zero
size). -/
def find_sequence (haystack needle : List Nat) : PRes (Option Nat) :=
  if haystack.length < needle.length then .ok none
  else if needle.length = 0 then .panic
  else .ok (findSeqGo needle haystack 0)

/-- `match_header(line, hdr)` from `client.rs`: length check, then
`line[0..hdr.len()].eq_ignore_ascii_case(hdr)`; the slice panics when
`hdr.len()` is not a char boundary of `line`. -/
def match_header (line hdr : List Nat) : PRes Bool :=
  if hdr.length ≤ line.length then
    match sliceStr line 0 hdr.length with
    | .ok pre => .ok (eqIgnoreAsciiCase pre hdr)
    | .panic => .panic
  else .ok false

/-- One transport read event of the model: deliver (up to) `n` bytes, or
fail with error kind `e`. -/
inductive ReadEv : Type
  | chunk (n : Nat)
  | err (e : Nat)
  deriving DecidableEq, Repr

/-- The borrowed transport connection: bytes successfully written so far,
the outcome schedule for writes (`none` = success), the count of writes
issued, the bytes the peer will deliver, the schedule of read events, and
the count of reads issued.  An exhausted schedule means plain success
(reads deliver as much as fits, writes succeed). -/
structure Conn : Type where
  written : List Nat
  wres : List (Option Nat)
  nw : Nat
  rdata : List Nat
  rres : List ReadEv
  nr : Nat
  deriving DecidableEq, Repr

/-- `connection.read(&mut buf[..cap])`: returns at most `cap` bytes, at
most what the peer has; a `chunk n` event further caps the size at `n`
(zero and short reads are valid transport behaviour).  When `rdata` is
exhausted the read returns 0 bytes (EOF). -/
def connRead (c : Conn) (cap : Nat) : Except Nat (List Nat) × Conn :=
  match c.rres with
  | .err e :: rest => (.error e, { c with rres := rest, nr := c.nr + 1 })
  | .chunk n :: rest =>
    let k := min (min n cap) c.rdata.length
    (.ok (c.rdata.take k),
      { c with rdata := c.rdata.drop k, rres := rest, nr := c.nr + 1 })
  | [] =>
    let k := min cap c.rdata.length
    (.ok (c.rdata.take k), { c with rdata := c.rdata.drop k, nr := c.nr + 1 })

/-- `connection.write(data)`: consumes the next write outcome;
on success the bytes are appended to the wire. -/
def connWrite (c : Conn) (data : List Nat) : Option Nat × Conn :=
  match c.wres with
  | some e :: rest => (some e, { c with wres := rest, nw := c.nw + 1 })
  | none :: rest =>
    (none, { c with wres := rest, nw := c.nw + 1, written := c.written ++ data })
  | [] => (none, { c with nw := c.nw + 1, written := c.written ++ data })

/-- Store `bytes` into the buffer at offset `pos`
(the effect of a read into `&mut rx_buf[pos..]`). -/
def writeAt (buf : List Nat) (pos : Nat) (bytes : List Nat) : List Nat :=
  buf.take pos ++ bytes ++ buf.drop (pos + bytes.length)

/-- The compaction loop `for i in 0..(pos - header_end) { rx_buf[i] =
rx_buf[header_end + i] }`: a forward element-wise copy, which (since the
destination index never catches up with the source index) leaves the
buffer equal to the shifted slice `[header_end, pos)` followed by the
untouched tail from index `pos - header_end` on. -/
def compact (buf : List Nat) (he pos : Nat) : List Nat :=
  (buf.drop he).take (pos - he) ++ buf.drop (pos - he)

/-- Header-line dispatch of `read_response` (lines 135-144 of
`client.rs`): status line at fixed offset 9, then `content-type`,
then `content-length`.  `b"HTTP/N.N ".len()` is 9; the status substring is
`line[9..12]`; header values are `line[name.len()+1 ..].trim_start()`. -/
def processLine (st : HdrState) (line : List Nat) : RR HdrState :=
  if line.take 4 == ascii "HTTP" then
    match sliceStr line 9 12 with
    | .panic => .panic
    | .ok s =>
      match parseU32 s with
      | none => .err Error.codec
      | some v => .ok { st with status := statusFrom v }
  else
    match match_header line (ascii "content-type") with
    | .panic => .panic
    | .ok true =>
      match sliceStr line 13 line.length with
      | .panic => .panic
      | .ok rest => .ok { st with content_type := some (trimStart rest) }
    | .ok false =>
      match match_header line (ascii "content-length") with
      | .panic => .panic
      | .ok true =>
        match sliceStr line 15 line.length with
        | .panic => .panic
        | .ok rest =>
          match parseUsize (trimStart rest) with
          | none => .err Error.codec
          | some v => .ok { st with content_length := v }
      | .ok false => .ok st

/-- `str::split("\r\n")`: split at each leftmost, non-overlapping CRLF. -/
def splitCRLF : List Nat → List (List Nat)
  | 13 :: 10 :: rest => [] :: splitCRLF rest
  | c :: rest =>
    match splitCRLF rest with
    | [] => [[c]]
    | l :: ls => (c :: l) :: ls
  | [] => [[]]

/-- The `for line in lines` loop over `processLine`, threading the header
state and stopping at the first error or panic. -/
def processLines : HdrState → List (List Nat) → RR HdrState
  | st, [] => .ok st
  | st, l :: ls =>
    match processLine st l with
    | .ok st2 => processLines st2 ls
    | .err e => .err e
    | .panic => .panic
    | .diverge => .diverge

/-- Header interpretation of `read_response` (lines 127-144):
`core::str::from_utf8` on `rx_buf[..header_end]` (invalid UTF-8 is a
`Codec` error), split on CRLF, and fold `processLine` from the initial
state (`BadRequest`, no content-type, zero content-length). -/
def parseHeader (h : List Nat) : RR HdrState :=
  if validUtf8 h then processLines ⟨Status.BadRequest, none, 0⟩ (splitCRLF h)
  else .err Error.codec

/-- The header-acquisition loop of `read_response` (lines 105-124):
while `pos < rx_buf.len()`, read into `rx_buf[pos..]`, then scan the whole
filled prefix for `\r\n\r\n`; on a hit, stop with `header_end` one past
the terminator.  If the buffer fills first, the loop exits with
`header_end` still 0.  Returns the buffer, `pos` and `header_end`. -/
def headerLoop : Nat → Conn → List Nat → Nat → RR (List Nat × Nat × Nat) × Conn
  | 0, c, _, _ => (.diverge, c)
  | f + 1, c, buf, pos =>
    if pos < buf.length then
      match connRead c (buf.length - pos) with
      | (.error e, c2) => (.err (.network e), c2)
      | (.ok bytes, c2) =>
        let buf2 := writeAt buf pos bytes
        let pos2 := pos + bytes.length
        match find_sequence (buf2.take pos2) (ascii "\r\n\r\n") with
        | .panic => (.panic, c2)
        | .ok (some n) => (.ok (buf2, pos2, n + 4), c2)
        | .ok none => headerLoop f c2 buf2 pos2
    else (.ok (buf, pos, 0), c)

/-- The payload-fetch loop of `read_response` (lines 171-179): while
`to_read > 0`, read into `rx_buf[pos..pos + to_read]` and advance.
Returns the buffer and final `pos`. -/
def payloadLoop : Nat → Conn → List Nat → Nat → Nat → RR (List Nat × Nat) × Conn
  | 0, c, _, _, _ => (.diverge, c)
  | f + 1, c, buf, pos, to_read =>
    if 0 < to_read then
      match connRead c to_read with
      | (.error e, c2) => (.err (.network e), c2)
      | (.ok bytes, c2) =>
        payloadLoop f c2 (writeAt buf pos bytes) (pos + bytes.length)
          (to_read - bytes.length)
    else (.ok (buf, pos), c)

/-- `read_response` (lines 104-194 of `client.rs`): header acquisition,
header parsing, in-place compaction (`pos -= header_end` cannot underflow
because a found terminator lies within the filled prefix; the guard marks
the impossible branch), then, for a positive `content_length`, the
unsigned computation `content_length - pos` — which underflows when more
payload bytes were buffered than declared (modelled as the panic of
overflow-checked arithmetic) — and the payload fetch capped by
`min(rx_buf.len() - pos, content_length)`. -/
def read_response (fuel : Nat) (c : Conn) (buf : List Nat) : RR Response × Conn :=
  match headerLoop fuel c buf 0 with
  | (.ok (buf1, pos1, he), c1) =>
    match parseHeader (buf1.take he) with
    | .ok st =>
      if pos1 < he then (.panic, c1)
      else
        let buf2 := compact buf1 he pos1
        let pos2 := pos1 - he
        if 0 < st.content_length then
          if st.content_length < pos2 then (.panic, c1)
          else
            let to_read := min (buf2.length - pos2) (st.content_length - pos2)
            match payloadLoop fuel c1 buf2 pos2 to_read with
            | (.ok (buf3, pos3), c2) =>
              (.ok ⟨st.status, st.content_type, some (buf3.take pos3)⟩, c2)
            | (.err e, c2) => (.err e, c2)
            | (.panic, c2) => (.panic, c2)
            | (.diverge, c2) => (.diverge, c2)
        else (.ok ⟨st.status, st.content_type, none⟩, c1)
    | .err e => (.err e, c1)
    | .panic => (.panic, c1)
    | .diverge => (.diverge, c1)
  | (.err e, c1) => (.err e, c1)
  | (.panic, c1) => (.panic, c1)
  | (.diverge, c1) => (.diverge, c1)

/-- `write_data`: one transport write, any error mapped to
`Error::Network` by `map_err(|e| e.kind())?`. -/
def write_data (c : Conn) (data : List Nat) : Option Error × Conn :=
  match connWrite c data with
  | (some e, c2) => (some (.network e), c2)
  | (none, c2) => (none, c2)

/-- `write_str`: write the UTF-8 bytes of a string. -/
def write_str (c : Conn) (s : List Nat) : Option Error × Conn := write_data c s

/-- Sequencing of fallible write steps: stop at the first error
(the `?` operator). -/
def wthen (r : Option Error × Conn) (g : Conn → Option Error × Conn) :
    Option Error × Conn :=
  match r with
  | (some e, c) => (some e, c)
  | (none, c) => g c

/-- `write_header`: `key`, `": "`, `value`, CRLF. -/
def write_header (c : Conn) (key value : List Nat) : Option Error × Conn :=
  wthen (write_str c key) fun c =>
  wthen (write_str c (ascii ": ")) fun c =>
  wthen (write_str c value) fun c =>
  write_str c (ascii "\r\n")

/-- The `for (header, value) in extra_headers` loop. -/
def writeHeaders : Conn → List (List Nat × List Nat) → Option Error × Conn
  | c, [] => (none, c)
  | c, (k, v) :: rest => wthen (write_header c k v) fun c2 => writeHeaders c2 rest

/-- The Basic-auth block (lines 59-72): format `username:password` into a
bounded 128-byte string (overflow is a `Codec` error before anything is
written), base64-encode it (the 256-byte output buffer always suffices for
a 128-byte input), and write the `Authorization` header. -/
def writeAuth (c : Conn) (auth : Option Auth) : Option Error × Conn :=
  match auth with
  | none => (none, c)
  | some (.basic user pass) =>
    let combined := user ++ ascii ":" ++ pass
    if combined.length ≤ 128 then
      wthen (write_str c (ascii "Authorization: Basic ")) fun c =>
      wthen (write_str c (base64Encode combined)) fun c =>
      write_str c (ascii "\r\n")
    else (some Error.codec, c)

/-- The optional `Content-Type` header (lines 73-75). -/
def writeContentType (c : Conn) (ct : Option (List Nat)) : Option Error × Conn :=
  match ct with
  | none => (none, c)
  | some v => write_header c (ascii "Content-Type") v

/-- The optional `Content-Length` header (lines 76-80): the decimal length
is formatted into a bounded 32-byte string (overflow would be a `Codec`
error). -/
def writeContentLength (c : Conn) (payload : Option (List Nat)) :
    Option Error × Conn :=
  match payload with
  | none => (none, c)
  | some p =>
    let s := natDec p.length
    if s.length ≤ 32 then write_header c (ascii "Content-Length") s
    else (some Error.codec, c)

/-- The header-writing part of `request` (lines 52-87): request line,
`Host`, optional auth, optional content-type, optional content-length,
extra headers, blank line. -/
def requestHead (req : Request) (host : List Nat) (c : Conn) : Option Error × Conn :=
  wthen (write_str c (methodStr req.method)) fun c =>
  wthen (write_str c (ascii " ")) fun c =>
  wthen (write_str c (req.path.getD (ascii "/"))) fun c =>
  wthen (write_str c (ascii " HTTP/1.1\r\n")) fun c =>
  wthen (write_header c (ascii "Host") host) fun c =>
  wthen (writeAuth c req.auth) fun c =>
  wthen (writeContentType c req.content_type) fun c =>
  wthen (writeContentLength c req.payload) fun c =>
  wthen (writeHeaders c (req.extra_headers.getD [])) fun c =>
  write_str c (ascii "\r\n")

/-- `request` (lines 51-102): encode and send the head; then, with no
payload, read the response; with a payload, write it (an error is mapped
to `Error::Network` and aborts with no response read), then read the
response. -/
def request (fuel : Nat) (req : Request) (host : List Nat) (c : Conn)
    (buf : List Nat) : RR Response × Conn :=
  match requestHead req host c with
  | (some e, c1) => (.err e, c1)
  | (none, c1) =>
    match req.payload with
    | none => read_response fuel c1 buf
    | some p =>
      match connWrite c1 p with
      | (none, c2) => read_response fuel c2 buf
      | (some e, c2) => (.err (.network e), c2)

/-- Specification-side behaviour of one write-only encoding step run from
connection `c`: it issues no reads and touches nothing on the read side,
consumes one write-outcome slot per issued write, and
- on success every consumed slot was a success;
- on a `Network e` outcome the last consumed slot failed with `e` and all
  earlier ones succeeded;
- on a `Codec` outcome (a bounded-formatting failure) every consumed slot
  succeeded. -/
def wstep (c : Conn) (out : Option Error × Conn) : Prop :=
  out.2.nr = c.nr ∧ out.2.rdata = c.rdata ∧ out.2.rres = c.rres ∧
  c.nw ≤ out.2.nw ∧ out.2.wres = c.wres.drop (out.2.nw - c.nw) ∧
  (match out.1 with
   | none => ∀ i, i < out.2.nw - c.nw → c.wres.getD i none = none
   | some (.network e) => 1 ≤ out.2.nw - c.nw ∧
       (∀ i, i < out.2.nw - c.nw - 1 → c.wres.getD i none = none) ∧
       c.wres.getD (out.2.nw - c.nw - 1) none = some e
   | some .codec => ∀ i, i < out.2.nw - c.nw → c.wres.getD i none = none)

/-- Specification-side notion for `find_sequence`: the needle occurs in
the haystack at offset `i` (window of the needle's length at `i` equals
the needle; this forces `i + needle.length ≤ haystack.length`). -/
def occAt (h n : List Nat) (i : Nat) : Prop := (h.drop i).take n.length = n

instance (h n : List Nat) (i : Nat) : Decidable (occAt h n i) :=
  inferInstanceAs (Decidable ((h.drop i).take n.length = n))

/-- Length of an optional payload slice (`None` counts as 0 bytes). -/
def payloadLen (p : Option (List Nat)) : Nat := (p.getD []).length

/-- All read events of a schedule are positive-size chunks (a transport
that keeps delivering at least one byte per read and never fails). -/
def okSched (evs : List ReadEv) : Bool :=
  evs.all fun ev =>
    match ev with
    | .chunk n => 1 ≤ n
    | .err _ => false

/-! ### Correctness of the lexical helpers -/

theorem isCharBoundary_zero (s : List Nat) : isCharBoundary s 0 = true := by
  simp [isCharBoundary]

/-- A (nonempty-needle) occurrence fits inside the haystack. -/
theorem occAt_length {h n : List Nat} {i : Nat} (hn : n ≠ []) (ho : occAt h n i) :
    i + n.length ≤ h.length := by
  unfold occAt at ho
  have hl := congrArg List.length ho
  simp [List.length_take, List.length_drop] at hl
  have : 0 < n.length := List.length_pos.mpr hn
  omega

/-- Shifting occurrences across a cons cell. -/
theorem occAt_cons_succ {a : Nat} {t n : List Nat} {j : Nat} :
    occAt (a :: t) n (j + 1) ↔ occAt t n j := by
  unfold occAt
  simp

/-- The window scan finds exactly the leftmost occurrence. -/
theorem findSeqGo_spec (n : List Nat) (hn : n ≠ []) :
    ∀ (h : List Nat) (p : Nat),
      (findSeqGo n h p = none ∧ ∀ j, ¬ occAt h n j) ∨
      (∃ i, findSeqGo n h p = some (p + i) ∧ occAt h n i ∧
        ∀ j, j < i → ¬ occAt h n j) := by
  intro h
  induction h with
  | nil =>
    intro p
    left
    constructor
    · simp [findSeqGo, hn]
    · intro j hj
      unfold occAt at hj
      simp only [List.drop_nil, List.take_nil] at hj
      exact hn hj.symm
  | cons a t ih =>
    intro p
    by_cases hc : (a :: t).take n.length = n
    · right
      refine ⟨0, ?_, ?_, ?_⟩
      · simp [findSeqGo, hc]
      · simpa [occAt] using hc
      · intro j hj; omega
    · have hstep : findSeqGo n (a :: t) p = findSeqGo n t (p + 1) := by
        simp [findSeqGo, hc]
      have hocc0 : ¬ occAt (a :: t) n 0 := by
        simpa [occAt] using hc
      rcases ih (p + 1) with ⟨hnone, hno⟩ | ⟨i, heq, hi, hmin⟩
      · left
        refine ⟨by rw [hstep]; exact hnone, ?_⟩
        intro j
        cases j with
        | zero => exact hocc0
        | succ j => exact fun hj => hno j (occAt_cons_succ.mp hj)
      · right
        refine ⟨i + 1, ?_, occAt_cons_succ.mpr hi, ?_⟩
        · rw [hstep, heq]; congr 1; omega
        · intro j hj
          cases j with
          | zero => exact hocc0
          | succ j => exact fun hcon => hmin j (by omega) (occAt_cons_succ.mp hcon)

/-- `find_sequence` returns `none` exactly when there is no occurrence
(nonempty needle). -/
theorem find_sequence_none {h n : List Nat} (hn : n ≠ []) :
    find_sequence h n = .ok none ↔ ∀ j, ¬ occAt h n j := by
  have hnl : n.length ≠ 0 := fun e => hn (List.length_eq_zero.mp e)
  unfold find_sequence
  by_cases hlen : h.length < n.length
  · rw [if_pos hlen]
    constructor
    · intro _ j hj
      have := occAt_length hn hj
      omega
    · intro _; rfl
  · rw [if_neg hlen, if_neg hnl]
    rcases findSeqGo_spec n hn h 0 with ⟨heq, hno⟩ | ⟨i, heq, hi, _⟩
    · simp only [heq]
      simp [hno]
    · rw [heq]
      simp only [PRes.ok.injEq]
      constructor
      · intro hcon; cases hcon
      · intro hall; exact absurd hi (hall i)

/-- `find_sequence` returns `some i` exactly at the leftmost occurrence
(nonempty needle). -/
theorem find_sequence_some {h n : List Nat} {i : Nat} (hn : n ≠ []) :
    find_sequence h n = .ok (some i) ↔
      (occAt h n i ∧ ∀ j, j < i → ¬ occAt h n j) := by
  have hnl : n.length ≠ 0 := fun e => hn (List.length_eq_zero.mp e)
  unfold find_sequence
  by_cases hlen : h.length < n.length
  · rw [if_pos hlen]
    simp only [PRes.ok.injEq]
    constructor
    · intro hcon; cases hcon
    · rintro ⟨hi, -⟩
      have := occAt_length hn hi
      omega
  · rw [if_neg hlen, if_neg hnl]
    rcases findSeqGo_spec n hn h 0 with ⟨heq, hno⟩ | ⟨i', heq, hi', hmin⟩
    · rw [heq]
      simp only [PRes.ok.injEq]
      constructor
      · intro hcon; cases hcon
      · rintro ⟨hi, -⟩
        exact absurd hi (hno i)
    · rw [heq]
      simp only [Nat.zero_add, PRes.ok.injEq, Option.some.injEq]
      constructor
      · rintro rfl
        exact ⟨hi', hmin⟩
      · rintro ⟨hi, hmin2⟩
        by_contra hne
        rcases Nat.lt_or_ge i' i with hlt | hge
        · exact hmin2 i' hlt hi'
        · exact hmin i (by omega) hi

/-- C8.  The claim as frozen quantifies over every needle, but for an
empty needle the source reaches `haystack.windows(0)`, which panics; see
the counterexample.  Amended claim, proved here: for every haystack and
every nonempty needle, `find_sequence` returns the smallest offset of an
occurrence of the needle in the haystack, and `none` when the haystack is
shorter than the needle or contains no occurrence. -/
theorem claim_C8 (h n : List Nat) (hn : n ≠ []) :
    (∀ i, find_sequence h n = .ok (some i) ↔
      (occAt h n i ∧ ∀ j, j < i → ¬ occAt h n j)) ∧
    (find_sequence h n = .ok none ↔ ∀ j, ¬ occAt h n j) :=
  ⟨fun _ => find_sequence_some hn, find_sequence_none hn⟩

/-- C8, counterexample to the claim as frozen: the empty needle occurs in
`"abc"` at offset 0, yet `find_sequence` panics (`slice::windows` with
size 0) instead of returning that offset. -/
theorem claim_C8_counterexample :
    occAt (ascii "abc") [] 0 ∧ find_sequence (ascii "abc") [] = .panic := by
  constructor
  · decide
  · decide

/-- C8, witness: the leftmost-occurrence characterization evaluated on the
repository's own test vector `find_sequence(b"foo\r\n\r\nbar", b"\r\n\r\n")`. -/
theorem claim_C8_witness :
    find_sequence (ascii "foo\r\n\r\nbar") (ascii "\r\n\r\n") = .ok (some 3) :=
  ((claim_C8 (ascii "foo\r\n\r\nbar") (ascii "\r\n\r\n") (by decide)).1 3).mpr
    ⟨by decide, by decide⟩

/-- Unpacking a successful `match_header`: the line is long enough and its
prefix agrees with the header name up to ASCII case. -/
theorem match_header_true {line hdr : List Nat}
    (h : match_header line hdr = .ok true) :
    hdr.length ≤ line.length ∧
      (line.take hdr.length).map asciiLower = hdr.map asciiLower := by
  unfold match_header at h
  by_cases hl : hdr.length ≤ line.length
  · refine ⟨hl, ?_⟩
    rw [if_pos hl] at h
    cases hs : sliceStr line 0 hdr.length with
    | panic => rw [hs] at h; cases h
    | ok pre =>
      rw [hs] at h
      have hpre : pre = line.take hdr.length := by
        unfold sliceStr at hs
        split at hs
        · simp only [PRes.ok.injEq] at hs
          simp [← hs]
        · cases hs
      simp only [PRes.ok.injEq] at h
      rw [hpre] at h
      simpa [eqIgnoreAsciiCase] using h
  · rw [if_neg hl] at h
    cases h

/-- C9.  The claim as frozen quantifies over every pair of strings, but
when `hdr`'s byte length is not a character boundary of `line` the slice
`line[0..hdr.len()]` panics; see the counterexample.  Amended claim,
proved here: whenever `hdr.length` falls on a char boundary of `line`
(always the case for ASCII lines; irrelevant when the line is shorter),
`match_header` returns true iff `line` is at least as long as `hdr` and
its prefix of `hdr`'s length equals `hdr` under ASCII case-insensitive
comparison, and it returns false whenever `line` is shorter than `hdr`. -/
theorem claim_C9 (line hdr : List Nat)
    (hb : hdr.length ≤ line.length → isCharBoundary line hdr.length = true) :
    (match_header line hdr = .ok true ↔
      (hdr.length ≤ line.length ∧
        (line.take hdr.length).map asciiLower = hdr.map asciiLower)) ∧
    (line.length < hdr.length → match_header line hdr = .ok false) := by
  constructor
  · constructor
    · exact fun h => match_header_true h
    · rintro ⟨hl, heq⟩
      unfold match_header
      rw [if_pos hl]
      have hs : sliceStr line 0 hdr.length = .ok (line.take hdr.length) := by
        unfold sliceStr
        rw [if_pos (by simp [isCharBoundary_zero, hb hl])]
        simp
      rw [hs]
      simp [eqIgnoreAsciiCase, heq]
  · intro hlt
    unfold match_header
    rw [if_neg (by omega)]

/-- C9, counterexample to the claim as frozen: `line` is the valid UTF-8
string `content-typé` (the final `é` is the two bytes 195, 169) and `hdr`
is `content-type`; the line is long enough and its 12-byte prefix is not
a case-insensitive match, so the claim requires `false`, but slicing
`line[0..12]` cuts the `é` in half and panics. -/
theorem claim_C9_counterexample :
    validUtf8 (ascii "content-typ" ++ [195, 169]) = true ∧
    match_header (ascii "content-typ" ++ [195, 169]) (ascii "content-type") =
      .panic := by
  constructor
  · decide
  · decide

/-- C9, witness: the boundary hypothesis holds for the repository's own
ASCII test vector, and `match_header` accepts it case-insensitively. -/
theorem claim_C9_witness :
    match_header (ascii "Content-Length: 4") (ascii "content-length") = .ok true :=
  (claim_C9 (ascii "Content-Length: 4") (ascii "content-length") (by decide)).1.mpr
    ⟨by decide, by decide⟩

/-- Byte `i` of a ln matched by `match_header` agrees with byte `i` of
the header name up to ASCII case. -/
theorem match_header_true_byte {ln hdr : List Nat} {i : Nat}
    (h : match_header ln hdr = .ok true) (hi : i < hdr.length) :
    Option.map asciiLower ln[i]? = Option.map asciiLower hdr[i]? := by
  obtain ⟨hl, heq⟩ := match_header_true h
  have h2 := congrArg (fun l => l[i]?) heq
  simp only [List.getElem?_map, List.getElem?_take, if_pos hi] at h2
  exact h2

/-- A ln starting with `HTTP` has byte 72 (`H`) first. -/
theorem take4_HTTP_head {ln : List Nat} (h : ln.take 4 = ascii "HTTP") :
    ln[0]? = some 72 := by
  have h2 := congrArg (fun l => l[0]?) h
  simp only [List.getElem?_take] at h2
  rw [if_pos (by omega)] at h2
  exact h2.trans (by decide)

/-- String slicing panics when the end of the range is past the end of
the string. -/
theorem sliceStr_oob {s : List Nat} {a b : Nat} (h : s.length < b) :
    sliceStr s a b = .panic := by
  unfold sliceStr
  rw [if_neg]
  simp only [Bool.and_eq_true, decide_eq_true_eq]
  rintro ⟨⟨-, -⟩, hbd⟩
  unfold isCharBoundary at hbd
  rw [if_neg (by omega), List.getElem?_eq_none (by omega)] at hbd
  simp only [beq_iff_eq] at hbd
  omega

/-- String slicing panics when the range is reversed. -/
theorem sliceStr_start_gt {s : List Nat} {a b : Nat} (h : b < a) :
    sliceStr s a b = .panic := by
  unfold sliceStr
  rw [if_neg]
  simp only [Bool.and_eq_true, decide_eq_true_eq]
  rintro ⟨⟨hab, -⟩, -⟩
  omega

/-- C10.  For a header line that starts with `HTTP` but is shorter than
the 12 bytes needed for `line[9..12]`, or that `match_header`-matches
`content-type` (resp. `content-length`) but is shorter than the name plus
a colon so that `line[13..]` (resp. `line[15..]`) starts out of bounds,
the fixed-offset slicing in the header-line dispatch of `read_response`
panics instead of producing a `Codec` error. -/
theorem claim_C10 (st : HdrState) (ln : List Nat)
    (h : (ln.take 4 = ascii "HTTP" ∧ ln.length < 12) ∨
      (match_header ln (ascii "content-type") = .ok true ∧ ln.length < 13) ∨
      (match_header ln (ascii "content-length") = .ok true ∧ ln.length < 15)) :
    processLine st ln = .panic := by
  rcases h with ⟨hp, hlen⟩ | ⟨hct, hlen⟩ | ⟨hcl, hlen⟩
  · unfold processLine
    rw [if_pos (by simp [hp]), sliceStr_oob hlen]
  · have h0 : Option.map asciiLower ln[0]? = some 99 :=
      (match_header_true_byte hct (by decide)).trans (by decide)
    have hhttp : ¬ (ln.take 4 == ascii "HTTP") = true := by
      simp only [beq_iff_eq]
      intro he
      rw [take4_HTTP_head he] at h0
      simp [asciiLower] at h0
    unfold processLine
    rw [if_neg hhttp, hct, sliceStr_start_gt hlen]
  · have h0 : Option.map asciiLower ln[0]? = some 99 :=
      (match_header_true_byte hcl (by decide)).trans (by decide)
    have hhttp : ¬ (ln.take 4 == ascii "HTTP") = true := by
      simp only [beq_iff_eq]
      intro he
      rw [take4_HTTP_head he] at h0
      simp [asciiLower] at h0
    have h12 : Option.map asciiLower ln[12]? = some 116 :=
      (match_header_true_byte hcl (by decide)).trans (by decide)
    obtain ⟨b12, hb12eq, hlow⟩ : ∃ b, ln[12]? = some b ∧ asciiLower b = 116 := by
      cases he : ln[12]? with
      | none => rw [he] at h12; cases h12
      | some b =>
        rw [he] at h12
        exact ⟨b, rfl, by simpa using h12⟩
    have hbd : isCharBoundary ln 12 = true := by
      unfold isCharBoundary
      rw [if_neg (by omega), hb12eq]
      unfold asciiLower at hlow
      split at hlow <;> simp <;> omega
    have hslice : sliceStr ln 0 12 = .ok (ln.take 12) := by
      unfold sliceStr
      rw [if_pos (by simp [isCharBoundary_zero, hbd])]
      simp
    have hmap : (ln.take 12).map asciiLower =
        ((ascii "content-length").map asciiLower).take 12 := by
      have h14 := (match_header_true hcl).2
      rw [show (ascii "content-length").length = 14 from by decide] at h14
      calc (ln.take 12).map asciiLower
          = ((ln.take 14).take 12).map asciiLower := by
            rw [List.take_take]
            norm_num
        _ = ((ln.take 14).map asciiLower).take 12 := by rw [List.map_take]
        _ = _ := by rw [h14]
    have hctf : eqIgnoreAsciiCase (ln.take 12) (ascii "content-type") = false := by
      unfold eqIgnoreAsciiCase
      rw [hmap]
      decide
    have hlen14 : 14 ≤ ln.length := by
      have h1 := (match_header_true hcl).1
      rw [show (ascii "content-length").length = 14 from by decide] at h1
      exact h1
    have hct_false : match_header ln (ascii "content-type") = .ok false := by
      unfold match_header
      rw [show (ascii "content-type").length = 12 from by decide]
      rw [if_pos (by omega), hslice]
      simp [hctf]
    unfold processLine
    rw [if_neg hhttp, hct_false, hcl, sliceStr_start_gt hlen]

/-- C10, witness: the bare status-line fragment `HTTP` (4 bytes, shorter
than 12) makes the dispatch panic. -/
theorem claim_C10_witness :
    processLine ⟨Status.BadRequest, none, 0⟩ (ascii "HTTP") = .panic :=
  claim_C10 ⟨Status.BadRequest, none, 0⟩ (ascii "HTTP")
    (Or.inl ⟨by decide, by decide⟩)

/-- C2.  The spec demands a hard validation failure (codec error) when
more payload bytes are already buffered than the declared content length;
the code instead evaluates `content_length - pos` as unchecked `usize`
arithmetic.  Concretely: a 50-byte buffer and a response delivered in one
read whose header declares `Content-Length: 1` but which bundles the two
body bytes `XY`; after compaction `pos = 2 > 1 = content_length` and the
subtraction underflows (a panic with overflow checks enabled; with them
disabled it wraps to `2^64 - 1` and the client over-reads up to the whole
buffer instead of failing).  The run evaluates to the panic outcome, not
to `Error::Codec`. -/
theorem claim_C2 :
    (read_response 10
      ⟨[], [], 0, ascii "HTTP/1.1 200 OK\r\nContent-Length: 1\r\n\r\nXY", [], 0⟩
      (List.replicate 50 0)).1 = RR.panic := by
  decide

/-! ### Buffer and transport lemmas -/

theorem writeAt_nil (buf : List Nat) (pos : Nat) : writeAt buf pos [] = buf := by
  simp [writeAt]

theorem writeAt_length {buf : List Nat} {pos : Nat} {bytes : List Nat}
    (h : pos + bytes.length ≤ buf.length) :
    (writeAt buf pos bytes).length = buf.length := by
  simp only [writeAt, List.length_append, List.length_take, List.length_drop]
  omega

theorem writeAt_take {buf : List Nat} {pos : Nat} (bytes : List Nat)
    (h : pos ≤ buf.length) :
    (writeAt buf pos bytes).take (pos + bytes.length) = buf.take pos ++ bytes := by
  unfold writeAt
  rw [List.append_assoc, List.take_append_eq_append_take,
    List.take_of_length_le (l := buf.take pos) (by rw [List.length_take]; omega),
    List.length_take]
  congr 1
  rw [show pos + bytes.length - min pos buf.length = bytes.length by omega]
  exact List.take_left' rfl

theorem writeAt_append {buf : List Nat} {pos : Nat} (b1 b2 : List Nat)
    (h : pos ≤ buf.length) :
    writeAt buf pos (b1 ++ b2) = writeAt (writeAt buf pos b1) (pos + b1.length) b2 := by
  have hdrop : (writeAt buf pos b1).drop (pos + b1.length + b2.length) =
      buf.drop (pos + b1.length + b2.length) := by
    rw [writeAt]
    rw [show pos + b1.length + b2.length = (buf.take pos ++ b1).length + b2.length by
      simp [List.length_take]; omega]
    rw [List.drop_append, List.drop_drop]
    congr 1
    simp [List.length_take]
    omega
  conv_rhs => rw [writeAt]
  rw [writeAt_take b1 h, hdrop, writeAt]
  simp [List.append_assoc, Nat.add_assoc]

theorem connRead_ok_inv {c : Conn} {cap : Nat} {bytes : List Nat} {c2 : Conn}
    (h : connRead c cap = (.ok bytes, c2)) :
    ∃ k, k ≤ cap ∧ k ≤ c.rdata.length ∧ bytes = c.rdata.take k ∧
      bytes.length = k ∧
      c2 = { c with rdata := c.rdata.drop k, rres := c.rres.tail,
                    nr := c.nr + 1 } := by
  unfold connRead at h
  match hr : c.rres with
  | ReadEv.err e :: rest =>
    rw [hr] at h
    simp at h
  | ReadEv.chunk n :: rest =>
    rw [hr] at h
    simp only [Prod.mk.injEq, Except.ok.injEq] at h
    obtain ⟨hb, hc⟩ := h
    refine ⟨min (min n cap) c.rdata.length, by omega, by omega, hb.symm, ?_, ?_⟩
    · rw [← hb, List.length_take]
      omega
    · rw [← hc]
      rfl
  | [] =>
    rw [hr] at h
    simp only [Prod.mk.injEq, Except.ok.injEq] at h
    obtain ⟨hb, hc⟩ := h
    refine ⟨min cap c.rdata.length, by omega, by omega, hb.symm, ?_, ?_⟩
    · rw [← hb, List.length_take]
      omega
    · rw [← hc]
      rfl

theorem connRead_no_err {c : Conn} {cap : Nat} {e : Nat} {c2 : Conn}
    (hs : okSched c.rres = true) :
    connRead c cap ≠ (.error e, c2) := by
  unfold connRead
  match hr : c.rres with
  | ReadEv.err e2 :: rest =>
    rw [hr] at hs
    simp [okSched] at hs
  | ReadEv.chunk n :: rest => simp
  | [] => simp

theorem connRead_pos {c : Conn} {cap : Nat} {bytes : List Nat} {c2 : Conn}
    (h : connRead c cap = (.ok bytes, c2)) (hs : okSched c.rres = true)
    (hcap : 1 ≤ cap) (hd : c.rdata ≠ []) : 1 ≤ bytes.length := by
  have hd1 : 1 ≤ c.rdata.length := by
    cases hde : c.rdata with
    | nil => exact absurd hde hd
    | cons a t => simp
  unfold connRead at h
  match hr : c.rres with
  | ReadEv.err e2 :: rest =>
    rw [hr] at hs
    simp [okSched] at hs
  | ReadEv.chunk n :: rest =>
    rw [hr] at hs h
    have hn : 1 ≤ n := by
      simp [okSched] at hs
      omega
    simp only [Prod.mk.injEq, Except.ok.injEq] at h
    rw [← h.1, List.length_take]
    omega
  | [] =>
    rw [hr] at h
    simp only [Prod.mk.injEq, Except.ok.injEq] at h
    rw [← h.1, List.length_take]
    omega

theorem okSched_tail {evs : List ReadEv} (h : okSched evs = true) :
    okSched evs.tail = true := by
  cases evs with
  | nil => simpa using h
  | cons a t =>
    rw [List.tail_cons]
    simp only [okSched, List.all_cons, Bool.and_eq_true] at h
    exact h.2

/-! ### The header-acquisition loop -/

/-- Invariant of a successful header-loop run: the cursor only advances,
stays within the buffer, the terminator offset lies within the filled
prefix, the filled prefix is the old prefix extended by the next wire
bytes, and the write side of the connection is untouched. -/
theorem headerLoop_inv :
    ∀ {f : Nat} {c : Conn} {buf : List Nat} {pos : Nat} {buf1 : List Nat}
      {pos1 he : Nat} {c1 : Conn},
      headerLoop f c buf pos = (.ok (buf1, pos1, he), c1) → pos ≤ buf.length →
      pos ≤ pos1 ∧ pos1 ≤ buf.length ∧ buf1.length = buf.length ∧ he ≤ pos1 ∧
        buf1.take pos1 = buf.take pos ++ c.rdata.take (pos1 - pos) ∧
        c1.rdata = c.rdata.drop (pos1 - pos) ∧
        c1.written = c.written ∧ c1.wres = c.wres ∧ c1.nw = c.nw := by
  intro f
  induction f with
  | zero =>
    intro c buf pos buf1 pos1 he c1 h hp
    simp [headerLoop] at h
  | succ f ih =>
    intro c buf pos buf1 pos1 he c1 h hp
    rw [headerLoop] at h
    by_cases hlt : pos < buf.length
    · rw [if_pos hlt] at h
      rcases hcr : connRead c (buf.length - pos) with ⟨res, c2⟩
      rw [hcr] at h
      cases res with
      | error e => simp at h
      | ok bytes =>
        simp only [] at h
        obtain ⟨k, hkcap, hklen, hbytes, hblen, hc2⟩ := connRead_ok_inv hcr
        have hpos2 : pos + bytes.length ≤ buf.length := by omega
        have hblen2 : (writeAt buf pos bytes).length = buf.length :=
          writeAt_length hpos2
        cases hfs : find_sequence
            ((writeAt buf pos bytes).take (pos + bytes.length))
            (ascii "\r\n\r\n") with
        | panic =>
          rw [hfs] at h
          simp at h
        | ok r =>
          rw [hfs] at h
          cases r with
          | some n =>
            simp only [Prod.mk.injEq, RR.ok.injEq] at h
            obtain ⟨⟨hbuf1, hpos1, hhe⟩, hc1⟩ := h
            subst hbuf1 hpos1 hhe hc1
            have hocc :=
              (find_sequence_some (n := ascii "\r\n\r\n") (by decide)).mp hfs
            have hn4 : n + 4 ≤ pos + bytes.length := by
              have hol := occAt_length (by decide) hocc.1
              rw [show (ascii "\r\n\r\n").length = 4 from by decide] at hol
              rw [List.length_take, hblen2] at hol
              omega
            refine ⟨by omega, by omega, hblen2, by omega, ?_, ?_, ?_, ?_, ?_⟩
            · rw [writeAt_take bytes (by omega), hblen, hbytes]
              congr 2
              omega
            · rw [hc2]
              simp only
              rw [hblen]
              congr 1
              omega
            · rw [hc2]
            · rw [hc2]
            · rw [hc2]
          | none =>
            have ihres := ih h (by rw [hblen2]; omega)
            rw [hblen2] at ihres
            obtain ⟨h1, h2, h3, h4, h5, h6, h7, h8, h9⟩ := ihres
            have hcr2 : c2.rdata = c.rdata.drop k := by rw [hc2]
            have hcw : c2.written = c.written ∧ c2.wres = c.wres ∧
                c2.nw = c.nw := by rw [hc2]; exact ⟨rfl, rfl, rfl⟩
            refine ⟨by omega, h2, h3, h4, ?_, ?_, ?_, ?_, ?_⟩
            · rw [h5, writeAt_take bytes (by omega), hblen, hbytes, hcr2,
                List.append_assoc, ← List.take_add]
              congr 2
              omega
            · rw [h6, hcr2, List.drop_drop]
              congr 1
              omega
            · rw [h7, hcw.1]
            · rw [h8, hcw.2.1]
            · rw [h9, hcw.2.2]
    · rw [if_neg hlt] at h
      simp only [Prod.mk.injEq, RR.ok.injEq] at h
      obtain ⟨⟨hbuf1, hpos1, hhe⟩, hc1⟩ := h
      subst hbuf1 hpos1 hhe hc1
      refine ⟨by omega, hp, rfl, by omega, by simp, by simp, rfl, rfl, rfl⟩

/-- A read never touches the write side of the connection. -/
theorem connRead_snd_w {c : Conn} {cap : Nat} {res : Except Nat (List Nat)}
    {c2 : Conn} (h : connRead c cap = (res, c2)) :
    c2.written = c.written ∧ c2.wres = c.wres ∧ c2.nw = c.nw := by
  unfold connRead at h
  match hr : c.rres with
  | ReadEv.err e :: rest =>
    rw [hr] at h
    simp only [Prod.mk.injEq] at h
    rw [← h.2]
    exact ⟨rfl, rfl, rfl⟩
  | ReadEv.chunk n :: rest =>
    rw [hr] at h
    simp only [Prod.mk.injEq] at h
    rw [← h.2]
    exact ⟨rfl, rfl, rfl⟩
  | [] =>
    rw [hr] at h
    simp only [Prod.mk.injEq] at h
    rw [← h.2]
    exact ⟨rfl, rfl, rfl⟩

/-- The header loop never touches the write side of the connection. -/
theorem headerLoop_snd_w :
    ∀ {f : Nat} {c : Conn} {buf : List Nat} {pos : Nat} {res : RR (List Nat × Nat × Nat)}
      {c1 : Conn}, headerLoop f c buf pos = (res, c1) →
      c1.written = c.written ∧ c1.wres = c.wres ∧ c1.nw = c.nw := by
  intro f
  induction f with
  | zero =>
    intro c buf pos res c1 h
    simp only [headerLoop, Prod.mk.injEq] at h
    rw [← h.2]
    exact ⟨rfl, rfl, rfl⟩
  | succ f ih =>
    intro c buf pos res c1 h
    rw [headerLoop] at h
    by_cases hlt : pos < buf.length
    · rw [if_pos hlt] at h
      rcases hcr : connRead c (buf.length - pos) with ⟨rres, c2⟩
      rw [hcr] at h
      obtain ⟨ha, hb, hc⟩ := connRead_snd_w hcr
      cases rres with
      | error e =>
        simp only [Prod.mk.injEq] at h
        rw [← h.2]
        exact ⟨ha, hb, hc⟩
      | ok bytes =>
        simp only [] at h
        cases hfs : find_sequence
            ((writeAt buf pos bytes).take (pos + bytes.length))
            (ascii "\r\n\r\n") with
        | panic =>
          rw [hfs] at h
          simp only [Prod.mk.injEq] at h
          rw [← h.2]
          exact ⟨ha, hb, hc⟩
        | ok r =>
          rw [hfs] at h
          cases r with
          | some n =>
            simp only [Prod.mk.injEq] at h
            rw [← h.2]
            exact ⟨ha, hb, hc⟩
          | none =>
            obtain ⟨h1, h2, h3⟩ := ih h
            exact ⟨h1.trans ha, h2.trans hb, h3.trans hc⟩
    · rw [if_neg hlt] at h
      simp only [Prod.mk.injEq] at h
      rw [← h.2]
      exact ⟨rfl, rfl, rfl⟩

/-- The payload loop never touches the write side of the connection. -/
theorem payloadLoop_snd_w :
    ∀ {f : Nat} {c : Conn} {buf : List Nat} {pos tr : Nat}
      {res : RR (List Nat × Nat)} {c1 : Conn},
      payloadLoop f c buf pos tr = (res, c1) →
      c1.written = c.written ∧ c1.wres = c.wres ∧ c1.nw = c.nw := by
  intro f
  induction f with
  | zero =>
    intro c buf pos tr res c1 h
    simp only [payloadLoop, Prod.mk.injEq] at h
    rw [← h.2]
    exact ⟨rfl, rfl, rfl⟩
  | succ f ih =>
    intro c buf pos tr res c1 h
    rw [payloadLoop] at h
    by_cases htr : 0 < tr
    · rw [if_pos htr] at h
      rcases hcr : connRead c tr with ⟨rres, c2⟩
      rw [hcr] at h
      obtain ⟨ha, hb, hc⟩ := connRead_snd_w hcr
      cases rres with
      | error e =>
        simp only [Prod.mk.injEq] at h
        rw [← h.2]
        exact ⟨ha, hb, hc⟩
      | ok bytes =>
        simp only [] at h
        obtain ⟨h1, h2, h3⟩ := ih h
        exact ⟨h1.trans ha, h2.trans hb, h3.trans hc⟩
    · rw [if_neg htr] at h
      simp only [Prod.mk.injEq] at h
      rw [← h.2]
      exact ⟨rfl, rfl, rfl⟩

/-- `read_response` never touches the write side of the connection. -/
theorem read_response_snd_w {f : Nat} {c : Conn} {buf : List Nat}
    {res : RR Response} {c9 : Conn} (h : read_response f c buf = (res, c9)) :
    c9.written = c.written ∧ c9.wres = c.wres ∧ c9.nw = c.nw := by
  unfold read_response at h
  rcases hh : headerLoop f c buf 0 with ⟨hres, c1⟩
  rw [hh] at h
  obtain ⟨ha, hb, hc⟩ := headerLoop_snd_w hh
  cases hres with
  | err e =>
    simp only [Prod.mk.injEq] at h
    rw [← h.2]
    exact ⟨ha, hb, hc⟩
  | panic =>
    simp only [Prod.mk.injEq] at h
    rw [← h.2]
    exact ⟨ha, hb, hc⟩
  | diverge =>
    simp only [Prod.mk.injEq] at h
    rw [← h.2]
    exact ⟨ha, hb, hc⟩
  | ok tri =>
    rcases tri with ⟨buf1, pos1, he⟩
    simp only [] at h
    cases hp : parseHeader (buf1.take he) with
    | err e =>
      rw [hp] at h
      simp only [Prod.mk.injEq] at h
      rw [← h.2]
      exact ⟨ha, hb, hc⟩
    | panic =>
      rw [hp] at h
      simp only [Prod.mk.injEq] at h
      rw [← h.2]
      exact ⟨ha, hb, hc⟩
    | diverge =>
      rw [hp] at h
      simp only [Prod.mk.injEq] at h
      rw [← h.2]
      exact ⟨ha, hb, hc⟩
    | ok st =>
      rw [hp] at h
      simp only [] at h
      by_cases h1 : pos1 < he
      · rw [if_pos h1] at h
        simp only [Prod.mk.injEq] at h
        rw [← h.2]
        exact ⟨ha, hb, hc⟩
      · rw [if_neg h1] at h
        by_cases h2 : 0 < st.content_length
        · rw [if_pos h2] at h
          by_cases h3 : st.content_length < pos1 - he
          · rw [if_pos h3] at h
            simp only [Prod.mk.injEq] at h
            rw [← h.2]
            exact ⟨ha, hb, hc⟩
          · rw [if_neg h3] at h
            rcases hpl : payloadLoop f c1 (compact buf1 he pos1) (pos1 - he)
                (min ((compact buf1 he pos1).length - (pos1 - he))
                  (st.content_length - (pos1 - he))) with ⟨pres, c2⟩
            rw [hpl] at h
            obtain ⟨pa, pb, pc⟩ := payloadLoop_snd_w hpl
            cases pres with
            | ok pr =>
              rcases pr with ⟨buf3, pos3⟩
              simp only [Prod.mk.injEq] at h
              rw [← h.2]
              exact ⟨pa.trans ha, pb.trans hb, pc.trans hc⟩
            | err e =>
              simp only [Prod.mk.injEq] at h
              rw [← h.2]
              exact ⟨pa.trans ha, pb.trans hb, pc.trans hc⟩
            | panic =>
              simp only [Prod.mk.injEq] at h
              rw [← h.2]
              exact ⟨pa.trans ha, pb.trans hb, pc.trans hc⟩
            | diverge =>
              simp only [Prod.mk.injEq] at h
              rw [← h.2]
              exact ⟨pa.trans ha, pb.trans hb, pc.trans hc⟩
        · rw [if_neg h2] at h
          simp only [Prod.mk.injEq] at h
          rw [← h.2]
          exact ⟨ha, hb, hc⟩

/-! ### The payload-fetch loop -/

/-- Running the payload loop with a failure-free positive schedule and
enough wire data delivers exactly `tr` more bytes into the buffer at
offset `pos`. -/
theorem payloadLoop_run :
    ∀ {f : Nat} {c : Conn} {buf : List Nat} {pos tr : Nat},
      okSched c.rres = true → tr ≤ c.rdata.length → pos + tr ≤ buf.length →
      tr + 1 ≤ f →
      ∃ c1, payloadLoop f c buf pos tr =
          (.ok (writeAt buf pos (c.rdata.take tr), pos + tr), c1) ∧
        c1.rdata = c.rdata.drop tr ∧ c1.written = c.written ∧
        c1.wres = c.wres ∧ c1.nw = c.nw := by
  intro f
  induction f with
  | zero =>
    intro c buf pos tr hs hd hb hf
    omega
  | succ f ih =>
    intro c buf pos tr hs hd hb hf
    by_cases htr : 0 < tr
    · rw [payloadLoop, if_pos htr]
      rcases hcr : connRead c tr with ⟨res, c2⟩
      cases res with
      | error e => exact absurd hcr (connRead_no_err hs)
      | ok bytes =>
        simp only []
        obtain ⟨k, hkcap, hklen, hbytes, hblen, hc2⟩ := connRead_ok_inv hcr
        have hrne : c.rdata ≠ [] := by
          intro he
          rw [he] at hd
          simp at hd
          omega
        have hk1 : 1 ≤ k := by
          have := connRead_pos hcr hs htr hrne
          omega
        have hsched2 : okSched c2.rres = true := by
          rw [hc2]
          exact okSched_tail hs
        have hrd2 : c2.rdata = c.rdata.drop k := by rw [hc2]
        have hwlen : (writeAt buf pos bytes).length = buf.length :=
          writeAt_length (by omega)
        obtain ⟨c1, hrun, hrd1, hw1, hw2, hw3⟩ :=
          @ih c2 (writeAt buf pos bytes)
            (pos + bytes.length) (tr - bytes.length)
            hsched2
            (by rw [hrd2, List.length_drop]; omega)
            (by rw [hwlen]; omega)
            (by omega)
        refine ⟨c1, ?_, ?_, ?_, ?_, ?_⟩
        · rw [hrun, ← writeAt_append bytes _ (show pos ≤ buf.length by omega)]
          have hcat : bytes ++ c2.rdata.take (tr - bytes.length) =
              c.rdata.take tr := by
            rw [hrd2, hblen, hbytes, ← List.take_add]
            congr 1
            omega
          rw [hcat]
          simp only [Prod.mk.injEq, RR.ok.injEq]
          exact ⟨⟨by trivial, by omega⟩, by trivial⟩
        · rw [hrd1, hrd2, List.drop_drop]
          congr 1
          omega
        · rw [hw1, hc2]
        · rw [hw2, hc2]
        · rw [hw3, hc2]
    · rw [payloadLoop, if_neg htr]
      have h0 : tr = 0 := by omega
      subst h0
      exact ⟨c, by simp [writeAt_nil], by simp, rfl, rfl, rfl⟩

/-! ### Claims C4 and C6 -/

/-- C4.  After a successful header acquisition (from `pos = 0`, as
`read_response` starts it), the terminator offset lies inside the filled
prefix, and the compaction step preserves every byte read past
`header_end`: the compacted buffer keeps its length and its first
`pos - header_end` bytes are exactly the wire bytes that followed the
header terminator (`read_response` then reduces `pos` by `header_end`). -/
theorem compact_length {buf : List Nat} {he pos : Nat} (h : pos ≤ buf.length) :
    (compact buf he pos).length = buf.length := by
  unfold compact
  rw [List.length_append, List.length_take, List.length_drop, List.length_drop]
  omega

theorem compact_take {buf : List Nat} {he pos : Nat} (hhe : he ≤ pos)
    (h : pos ≤ buf.length) :
    (compact buf he pos).take (pos - he) = (buf.take pos).drop he := by
  unfold compact
  rw [List.take_append_eq_append_take]
  have hx : ((buf.drop he).take (pos - he)).length = pos - he := by
    rw [List.length_take, List.length_drop]
    omega
  rw [List.take_of_length_le (le_of_eq hx), hx, Nat.sub_self, List.take_zero,
    List.append_nil, ← List.drop_take]

theorem claim_C4 {f : Nat} {c : Conn} {buf buf1 : List Nat} {pos1 he : Nat}
    {c1 : Conn}
    (hrun : headerLoop f c buf 0 = (.ok (buf1, pos1, he), c1)) :
    he ≤ pos1 ∧
      (compact buf1 he pos1).length = buf1.length ∧
      (compact buf1 he pos1).take (pos1 - he) = (c.rdata.take pos1).drop he := by
  obtain ⟨-, h2, h3, h4, h5, -, -, -, -⟩ := headerLoop_inv hrun (by omega)
  simp only [Nat.sub_zero, List.take_zero, List.nil_append] at h5
  refine ⟨h4, ?_, ?_⟩
  · rw [compact_length (by omega)]
  · rw [compact_take h4 (by omega), h5]

/-- C4, witness: a 24-byte buffer receiving, in one read, a 19-byte header
block bundled with the two payload bytes `ab`; compaction moves `ab` to
the front. -/
theorem claim_C4_witness :
    (19 : Nat) ≤ 21 ∧
      (compact (ascii "HTTP/1.1 200 OK\r\n\r\nab" ++ List.replicate 3 0) 19 21).length =
        (ascii "HTTP/1.1 200 OK\r\n\r\nab" ++ List.replicate 3 0).length ∧
      (compact (ascii "HTTP/1.1 200 OK\r\n\r\nab" ++ List.replicate 3 0) 19 21).take
          (21 - 19) =
        (((ascii "HTTP/1.1 200 OK\r\n\r\nab").take 21).drop 19) :=
  @claim_C4 25 ⟨[], [], 0, ascii "HTTP/1.1 200 OK\r\n\r\nab", [], 0⟩
    (List.replicate 24 0) (ascii "HTTP/1.1 200 OK\r\n\r\nab" ++ List.replicate 3 0)
    21 19 ⟨[], [], 0, [], [], 1⟩ (by decide)

/-- C6.  Whenever the header phase succeeds and header parsing yields a
zero `content_length` (in particular when no `Content-Length` line is
present, since the initial value is 0), `read_response` returns `Ok` with
`payload = None` and the connection exactly as the header phase left it —
no payload read is issued. -/
theorem claim_C6 {f : Nat} {c : Conn} {buf buf1 : List Nat} {pos1 he : Nat}
    {c1 : Conn} {st : HdrState}
    (hrun : headerLoop f c buf 0 = (.ok (buf1, pos1, he), c1))
    (hparse : parseHeader (buf1.take he) = .ok st)
    (hcl : st.content_length = 0) :
    read_response f c buf = (.ok ⟨st.status, st.content_type, none⟩, c1) := by
  obtain ⟨-, -, -, h4, -, -, -, -, -⟩ := headerLoop_inv hrun (by omega)
  unfold read_response
  rw [hrun]
  have h1 : ¬ pos1 < he := by omega
  simp [hparse, h1, hcl]

/-- C6, witness: a `Content-Length`-free 19-byte response in a 24-byte
buffer; the run returns `payload = None` with only the single header read
issued (the returned connection is the header-phase connection). -/
theorem claim_C6_witness :
    read_response 25 ⟨[], [], 0, ascii "HTTP/1.1 200 OK\r\n\r\n", [], 0⟩
        (List.replicate 24 0) =
      (.ok ⟨Status.Ok, none, none⟩, ⟨[], [], 0, [], [], 1⟩) :=
  @claim_C6 25 ⟨[], [], 0, ascii "HTTP/1.1 200 OK\r\n\r\n", [], 0⟩
    (List.replicate 24 0) (ascii "HTTP/1.1 200 OK\r\n\r\n" ++ List.replicate 5 0)
    19 19 ⟨[], [], 0, [], [], 1⟩ ⟨Status.Ok, none, 0⟩
    (by decide) (by decide) rfl

/-! ### Occurrences in prefixes and concatenations -/

/-- An occurrence in a prefix is an occurrence in the whole list. -/
theorem occAt_of_occAt_take {l n : List Nat} {m j : Nat}
    (h : occAt (l.take m) n j) : occAt l n j := by
  unfold occAt at h ⊢
  rw [List.drop_take, List.take_take] at h
  have hlen := congrArg List.length h
  rw [List.length_take] at hlen
  have h2 : n.length ⊓ (m - j) = n.length := by omega
  rw [h2] at h
  exact h

/-- An occurrence that fits inside the first `m` elements is an occurrence
in the prefix of length `m`. -/
theorem occAt_take_of_occAt {l n : List Nat} {m j : Nat} (h : occAt l n j)
    (hm : j + n.length ≤ m) : occAt (l.take m) n j := by
  unfold occAt at h ⊢
  rw [List.drop_take, List.take_take]
  rw [show n.length ⊓ (m - j) = n.length by omega]
  exact h

/-- An occurrence inside the left part survives appending on the right. -/
theorem occAt_append_left {H B n : List Nat} {i : Nat} (hn : n ≠ [])
    (h : occAt H n i) : occAt (H ++ B) n i := by
  have hle := occAt_length hn h
  unfold occAt at h ⊢
  rw [List.drop_append_eq_append_drop, show i - H.length = 0 by omega,
    List.drop_zero, List.take_append_eq_append_take,
    show n.length - (H.drop i).length = 0 by rw [List.length_drop]; omega,
    List.take_zero, List.append_nil]
  exact h

/-- An occurrence in a concatenation that fits inside the left part is an
occurrence in the left part. -/
theorem occAt_append_left_inv {H B n : List Nat} {i : Nat}
    (hm : i + n.length ≤ H.length) (h : occAt (H ++ B) n i) : occAt H n i := by
  unfold occAt at h ⊢
  rw [List.drop_append_eq_append_drop, show i - H.length = 0 by omega,
    List.drop_zero, List.take_append_eq_append_take,
    show n.length - (H.drop i).length = 0 by rw [List.length_drop]; omega,
    List.take_zero, List.append_nil] at h
  exact h

/-! ### Claim C1: buffer exhausted while searching for the terminator -/

/-- When the schedule is failure-free with positive chunk sizes, the peer
has at least enough bytes to fill the buffer, and no terminator occurs
among the bytes that fit, the header loop fills the buffer completely and
exits by its `pos < rx_buf.len()` condition with `header_end` still 0. -/
theorem headerLoop_fills :
    ∀ {f : Nat} {c : Conn} {buf : List Nat} {pos : Nat},
      okSched c.rres = true → pos ≤ buf.length →
      buf.length - pos ≤ c.rdata.length →
      buf.length - pos + 1 ≤ f →
      (∀ j, ¬ occAt (buf.take pos ++ c.rdata.take (buf.length - pos))
        (ascii "\r\n\r\n") j) →
      ∃ buf1 c1, headerLoop f c buf pos = (.ok (buf1, buf.length, 0), c1) := by
  intro f
  induction f with
  | zero =>
    intro c buf pos hs hp hd hf hno
    omega
  | succ f ih =>
    intro c buf pos hs hp hd hf hno
    by_cases hlt : pos < buf.length
    · rw [headerLoop, if_pos hlt]
      rcases hcr : connRead c (buf.length - pos) with ⟨res, c2⟩
      cases res with
      | error e => exact absurd hcr (connRead_no_err hs)
      | ok bytes =>
        simp only []
        obtain ⟨k, hkcap, hklen, hbytes, hblen, hc2⟩ := connRead_ok_inv hcr
        have hrne : c.rdata ≠ [] := by
          intro he
          rw [he] at hd
          simp at hd
          omega
        have hk1 : 1 ≤ k := by
          have := connRead_pos hcr hs (by omega) hrne
          omega
        have hrd2 : c2.rdata = c.rdata.drop k := by rw [hc2]
        have hsched2 : okSched c2.rres = true := by
          rw [hc2]
          exact okSched_tail hs
        have hwlen : (writeAt buf pos bytes).length = buf.length :=
          writeAt_length (by omega)
        have htakeL : (writeAt buf pos bytes).take (pos + bytes.length) =
            buf.take pos ++ c.rdata.take k := by
          rw [writeAt_take bytes (by omega), hbytes]
        have htakeR : (buf.take pos ++ c.rdata.take (buf.length - pos)).take
              (pos + k) = buf.take pos ++ c.rdata.take k := by
          rw [List.take_append_eq_append_take,
            List.take_of_length_le (l := buf.take pos)
              (by rw [List.length_take]; omega),
            List.length_take, List.take_take]
          congr 2
          omega
        have hfind : find_sequence
            ((writeAt buf pos bytes).take (pos + bytes.length))
            (ascii "\r\n\r\n") = .ok none := by
          apply (find_sequence_none (by decide)).mpr
          intro j hj
          rw [htakeL, ← htakeR] at hj
          exact hno j (occAt_of_occAt_take hj)
        rw [hfind]
        have hLeq : (writeAt buf pos bytes).take (pos + bytes.length) ++
            c2.rdata.take ((writeAt buf pos bytes).length - (pos + bytes.length)) =
            buf.take pos ++ c.rdata.take (buf.length - pos) := by
          rw [htakeL, hrd2, hwlen, hblen, List.append_assoc, ← List.take_add]
          congr 2
          omega
        obtain ⟨buf1, c1, hrec⟩ := @ih c2 (writeAt buf pos bytes)
          (pos + bytes.length)
          hsched2
          (by rw [hwlen, hblen]; omega)
          (by rw [hwlen, hrd2, List.length_drop, hblen]; omega)
          (by rw [hwlen, hblen]; omega)
          (by rw [hLeq]; exact hno)
        rw [hwlen] at hrec
        exact ⟨buf1, c1, hrec⟩
    · rw [headerLoop, if_neg hlt]
      exact ⟨buf, c, by rw [show pos = buf.length by omega]⟩

/-- C1.  The claim as frozen says that a transport which fills the buffer
before any `\r\n\r\n` appears makes `read_response` fail with a
codec-class error.  In fact the loop then exits with `header_end = 0`, the
empty header block parses successfully, and the call returns `Ok` with the
`BadRequest` sentinel status, no content-type and no payload; see the
counterexample.  Amended claim, proved here: for every such transport
(failure-free positive reads, at least a buffer's worth of bytes, no
terminator among the bytes that fit) the call returns
`Ok(status = BadRequest, content_type = None, payload = None)` — it
neither loops forever nor reads out of bounds, but it also raises no
error. -/
theorem claim_C1 {f : Nat} {c : Conn} {buf : List Nat}
    (hs : okSched c.rres = true)
    (hd : buf.length ≤ c.rdata.length)
    (hf : buf.length + 1 ≤ f)
    (hno : find_sequence (c.rdata.take buf.length) (ascii "\r\n\r\n") = .ok none) :
    (read_response f c buf).1 = .ok ⟨Status.BadRequest, none, none⟩ := by
  have hno2 : ∀ j, ¬ occAt (c.rdata.take buf.length) (ascii "\r\n\r\n") j :=
    (find_sequence_none (by decide)).mp hno
  obtain ⟨buf1, c1, hrun⟩ := @headerLoop_fills f c buf
    0 hs (by omega) (by omega) (by omega) (by simpa using hno2)
  unfold read_response
  rw [hrun]
  have hp : parseHeader [] = .ok ⟨Status.BadRequest, none, 0⟩ := by decide
  simp [hp]

/-- C1, counterexample to the claim as frozen: a 4-byte buffer filled by a
transport sending `AAAA`; the call returns `Ok` with the `BadRequest`
sentinel and no payload — not a codec error. -/
theorem claim_C1_counterexample :
    read_response 5 ⟨[], [], 0, List.replicate 4 65, [], 0⟩
        (List.replicate 4 0) =
      (.ok ⟨Status.BadRequest, none, none⟩, ⟨[], [], 0, [], [], 1⟩) := by
  decide

/-- C1, witness: a 5-byte buffer filled by the terminator-free bytes
`ABCDE`. -/
theorem claim_C1_witness :
    (read_response 6 ⟨[], [], 0, ascii "ABCDE", [], 0⟩
      (List.replicate 5 0)).1 = .ok ⟨Status.BadRequest, none, none⟩ :=
  claim_C1 (by decide) (by decide) (by decide) (by decide)

/-! ### Header acquisition when the terminator is present -/

/-- Running the header loop when the wire stream `T` contains the
terminator, leftmost at offset `j`, reachable before the buffer fills:
the loop stops with `header_end = j + 4`, having filled the buffer with a
prefix of `T` that covers the terminator. -/
theorem headerLoop_finds :
    ∀ {f : Nat} {c : Conn} {buf : List Nat} {pos : Nat} {T : List Nat} {j : Nat},
      okSched c.rres = true →
      buf.take pos = T.take pos → c.rdata = T.drop pos →
      pos ≤ buf.length →
      occAt T (ascii "\r\n\r\n") j →
      (∀ i, i < j → ¬ occAt T (ascii "\r\n\r\n") i) →
      j + 4 ≤ buf.length →
      pos < j + 4 →
      j + 5 - pos ≤ f →
      ∃ buf1 pos1 c1,
        headerLoop f c buf pos = (.ok (buf1, pos1, j + 4), c1) ∧
        j + 4 ≤ pos1 ∧ pos1 ≤ buf.length ∧ pos1 ≤ T.length ∧
        buf1.length = buf.length ∧
        buf1.take pos1 = T.take pos1 ∧ c1.rdata = T.drop pos1 ∧
        okSched c1.rres = true := by
  intro f
  induction f with
  | zero =>
    intro c buf pos T j hs hbt hrd hp hocc hmin hjb hpj hf
    omega
  | succ f ih =>
    intro c buf pos T j hs hbt hrd hp hocc hmin hjb hpj hf
    have hTlen : j + 4 ≤ T.length := by
      have := occAt_length (n := ascii "\r\n\r\n") (by decide) hocc
      rw [show (ascii "\r\n\r\n").length = 4 from by decide] at this
      omega
    have hlt : pos < buf.length := by omega
    rw [headerLoop, if_pos hlt]
    rcases hcr : connRead c (buf.length - pos) with ⟨res, c2⟩
    cases res with
    | error e => exact absurd hcr (connRead_no_err hs)
    | ok bytes =>
      simp only []
      obtain ⟨k, hkcap, hklen, hbytes, hblen, hc2⟩ := connRead_ok_inv hcr
      have hrne : c.rdata ≠ [] := by
        intro he
        rw [he] at hrd
        have := congrArg List.length hrd
        rw [List.length_drop] at this
        simp at this
        omega
      have hk1 : 1 ≤ k := by
        have := connRead_pos hcr hs (by omega) hrne
        omega
      have hklenT : k ≤ T.length - pos := by
        rw [hrd, List.length_drop] at hklen
        exact hklen
      have hrd2 : c2.rdata = T.drop (pos + k) := by
        rw [hc2]
        simp only
        rw [hrd, List.drop_drop]
      have hsched2 : okSched c2.rres = true := by
        rw [hc2]
        exact okSched_tail hs
      have hwlen : (writeAt buf pos bytes).length = buf.length :=
        writeAt_length (by omega)
      have htakeL : (writeAt buf pos bytes).take (pos + bytes.length) =
          T.take (pos + k) := by
        rw [writeAt_take bytes (by omega), hbytes, hrd, hbt, ← List.take_add]
      by_cases hreach : pos + k < j + 4
      · have hfind : find_sequence
            ((writeAt buf pos bytes).take (pos + bytes.length))
            (ascii "\r\n\r\n") = .ok none := by
          apply (find_sequence_none (by decide)).mpr
          intro i hi
          rw [htakeL] at hi
          have hiT := occAt_of_occAt_take hi
          have hibound := occAt_length (n := ascii "\r\n\r\n") (by decide) hi
          rw [show (ascii "\r\n\r\n").length = 4 from by decide,
            List.length_take] at hibound
          exact hmin i (by omega) hiT
        rw [hfind]
        obtain ⟨buf1, pos1, c1, hrec, h1, h2, h3, h4, h5, h6, h7⟩ :=
          @ih c2 (writeAt buf pos bytes)
            (pos + bytes.length) T j
            hsched2
            (by rw [htakeL, hblen])
            (by rw [hrd2, hblen])
            (by rw [hwlen, hblen]; omega)
            hocc hmin
            (by rw [hwlen]; omega)
            (by rw [hblen]; omega)
            (by rw [hblen]; omega)
        rw [hwlen] at h2 h4
        exact ⟨buf1, pos1, c1, hrec, h1, h2, h3, h4, h5, h6, h7⟩
      · have hfind : find_sequence
            ((writeAt buf pos bytes).take (pos + bytes.length))
            (ascii "\r\n\r\n") = .ok (some j) := by
          apply (find_sequence_some (by decide)).mpr
          constructor
          · rw [htakeL]
            exact occAt_take_of_occAt hocc
              (by rw [show (ascii "\r\n\r\n").length = 4 from by decide]; omega)
          · intro i hi hcon
            rw [htakeL] at hcon
            exact hmin i hi (occAt_of_occAt_take hcon)
        rw [hfind]
        refine ⟨writeAt buf pos bytes, pos + bytes.length, c2, rfl,
          by omega, by omega, ?_, hwlen, ?_, ?_, hsched2⟩
        · rw [hblen]
          omega
        · rw [htakeL, hblen]
        · rw [hrd2, hblen]

/-! ### Full decoder runs: claims C3 and C5 -/

/-- Full run of `read_response` on a wire stream `H ++ B` whose header
block `H` carries the leftmost terminator at its end, fits in the buffer,
and parses to `st`, with a body `B` of exactly the declared length, over
an arbitrary failure-free positive read schedule: the decoder returns
`st`'s status and content-type and a payload equal to the body truncated
at the buffer bound (absent when the declared length is 0). -/
theorem read_response_run {f : Nat} {c : Conn} {buf H B : List Nat}
    {st : HdrState}
    (hdata : c.rdata = H ++ B)
    (hs : okSched c.rres = true)
    (hfirst : find_sequence H (ascii "\r\n\r\n") = .ok (some (H.length - 4)))
    (hHbuf : H.length ≤ buf.length)
    (hparse : parseHeader H = .ok st)
    (hB : B.length = st.content_length)
    (hf : buf.length + 1 ≤ f) :
    ∃ c1, read_response f c buf =
      (.ok ⟨st.status, st.content_type,
        if st.content_length = 0 then none
        else some (B.take (min st.content_length buf.length))⟩, c1) := by
  obtain ⟨hoccH, hminH⟩ := (find_sequence_some (by decide)).mp hfirst
  have h4 : (ascii "\r\n\r\n").length = 4 := by decide
  have hH4 : 4 ≤ H.length := by
    have := occAt_length (n := ascii "\r\n\r\n") (by decide) hoccH
    rw [h4] at this
    omega
  have hoccT : occAt (H ++ B) (ascii "\r\n\r\n") (H.length - 4) :=
    occAt_append_left (by decide) hoccH
  have hminT : ∀ i, i < H.length - 4 →
      ¬ occAt (H ++ B) (ascii "\r\n\r\n") i := by
    intro i hi hcon
    exact hminH i hi (occAt_append_left_inv (by rw [h4]; omega) hcon)
  obtain ⟨buf1, pos1, c1, hrun, h1, h2, h3, hlen1, htake1, hrd1, hsched1⟩ :=
    @headerLoop_finds f c buf 0
      (H ++ B) (H.length - 4)
      hs (by simp) (by simpa using hdata) (by omega)
      hoccT hminT (by omega) (by omega) (by omega)
  rw [show H.length - 4 + 4 = H.length by omega] at hrun h1
  rw [List.length_append] at h3
  have hHtake : buf1.take H.length = H := by
    calc buf1.take H.length = (buf1.take pos1).take H.length := by
          rw [List.take_take]
          congr 1
          omega
      _ = ((H ++ B).take pos1).take H.length := by rw [htake1]
      _ = (H ++ B).take H.length := by
          rw [List.take_take]
          congr 1
          omega
      _ = H := List.take_left H B
  unfold read_response
  rw [hrun]
  simp only []
  rw [hHtake, hparse]
  simp only []
  rw [if_neg (show ¬ pos1 < H.length by omega)]
  by_cases hcl : st.content_length = 0
  · refine ⟨c1, ?_⟩
    simp [hcl]
  · have hclpos : 0 < st.content_length := by omega
    have hpos2B : pos1 - H.length ≤ B.length := by omega
    rw [if_pos hclpos,
      if_neg (show ¬ st.content_length < pos1 - H.length by omega)]
    have hclen : (compact buf1 H.length pos1).length = buf.length := by
      rw [compact_length (by omega), hlen1]
    rw [hclen]
    have hrdB : c1.rdata = B.drop (pos1 - H.length) := by
      rw [hrd1, List.drop_append_eq_append_drop,
        List.drop_eq_nil_of_le (by omega), List.nil_append]
    obtain ⟨c2, hpl, hrd2, hw1, hw2, hw3⟩ :=
      @payloadLoop_run f c1 (compact buf1 H.length pos1)
        (pos1 - H.length)
        (min (buf.length - (pos1 - H.length))
          (st.content_length - (pos1 - H.length)))
        hsched1
        (by rw [hrdB, List.length_drop]; omega)
        (by rw [hclen]; omega)
        (by omega)
    rw [hpl]
    refine ⟨c2, ?_⟩
    rw [if_neg hcl]
    simp only [Prod.mk.injEq, RR.ok.injEq, Response.mk.injEq]
    refine ⟨⟨by trivial, by trivial, ?_⟩, by trivial⟩
    congr 1
    have hM : min (buf.length - (pos1 - H.length))
        (st.content_length - (pos1 - H.length)) ≤
        c1.rdata.length := by
      rw [hrdB, List.length_drop]
      omega
    have hbl : (c1.rdata.take (min (buf.length - (pos1 - H.length))
        (st.content_length - (pos1 - H.length)))).length =
        min (buf.length - (pos1 - H.length))
          (st.content_length - (pos1 - H.length)) := by
      rw [List.length_take]
      omega
    calc (writeAt (compact buf1 H.length pos1) (pos1 - H.length)
          (c1.rdata.take (min (buf.length - (pos1 - H.length))
            (st.content_length - (pos1 - H.length))))).take
          ((pos1 - H.length) + min (buf.length - (pos1 - H.length))
            (st.content_length - (pos1 - H.length)))
        = (writeAt (compact buf1 H.length pos1) (pos1 - H.length)
            (c1.rdata.take (min (buf.length - (pos1 - H.length))
              (st.content_length - (pos1 - H.length))))).take
          ((pos1 - H.length) +
            (c1.rdata.take (min (buf.length - (pos1 - H.length))
              (st.content_length - (pos1 - H.length)))).length) := by
          rw [hbl]
      _ = (compact buf1 H.length pos1).take (pos1 - H.length) ++
            c1.rdata.take (min (buf.length - (pos1 - H.length))
              (st.content_length - (pos1 - H.length))) :=
          writeAt_take _ (by rw [hclen]; omega)
      _ = B.take (pos1 - H.length) ++
            (B.drop (pos1 - H.length)).take
              (min (buf.length - (pos1 - H.length))
                (st.content_length - (pos1 - H.length))) := by
          rw [compact_take (by omega) (by omega), htake1, List.drop_take,
            List.drop_left, hrdB]
      _ = B.take ((pos1 - H.length) + min (buf.length - (pos1 - H.length))
            (st.content_length - (pos1 - H.length))) := by
          rw [← List.take_add]
      _ = B.take (min st.content_length buf.length) := by
          congr 1
          omega

/-- C3.  For a response whose header block and declared body fit in the
receive buffer, delivered as exactly the header bytes followed by exactly
`Content-Length` body bytes, under every partitioning of the wire bytes
into positive-length reads (the arbitrary `okSched` chunk schedule —
including one single read, and any sequence of short reads), decoding
returns `Ok` and the payload slice's length equals the declared
`Content-Length` (the payload is exactly the body; it is `None` — of
payload length 0 — when the declared length is 0). -/
theorem claim_C3 {f : Nat} {c : Conn} {buf H B : List Nat} {st : HdrState}
    (hdata : c.rdata = H ++ B)
    (hs : okSched c.rres = true)
    (hfirst : find_sequence H (ascii "\r\n\r\n") = .ok (some (H.length - 4)))
    (hparse : parseHeader H = .ok st)
    (hB : B.length = st.content_length)
    (hfit : H.length + st.content_length ≤ buf.length)
    (hf : buf.length + 1 ≤ f) :
    (read_response f c buf).1 =
      .ok ⟨st.status, st.content_type,
        if st.content_length = 0 then none else some B⟩ ∧
    payloadLen (if st.content_length = 0 then none else some B) =
      st.content_length := by
  obtain ⟨c1, hres⟩ := read_response_run hdata hs hfirst (by omega) hparse hB hf
  have hmin : min st.content_length buf.length = st.content_length := by omega
  have htk : B.take (min st.content_length buf.length) = B := by
    rw [hmin]
    exact List.take_of_length_le (by omega)
  rw [htk] at hres
  constructor
  · rw [hres]
  · by_cases hcl : st.content_length = 0
    · rw [if_pos hcl, hcl]
      rfl
    · rw [if_neg hcl]
      simpa [payloadLen] using hB

/-- C3, witness: the 38-byte header `HTTP/1.1 200 OK` + `Content-Length:
3` followed by the 3-byte body `abc`, in a 45-byte buffer, delivered by
the default schedule (one read). -/
theorem claim_C3_witness :
    (read_response 46
      ⟨[], [], 0, ascii "HTTP/1.1 200 OK\r\nContent-Length: 3\r\n\r\nabc",
        [], 0⟩
      (List.replicate 45 0)).1 =
      .ok ⟨Status.Ok, none, some (ascii "abc")⟩ ∧
    payloadLen (some (ascii "abc")) = 3 :=
  @claim_C3 46
    ⟨[], [], 0, ascii "HTTP/1.1 200 OK\r\nContent-Length: 3\r\n\r\nabc", [], 0⟩
    (List.replicate 45 0) (ascii "HTTP/1.1 200 OK\r\nContent-Length: 3\r\n\r\n")
    (ascii "abc") ⟨Status.Ok, none, 3⟩
    (by decide) (by decide) (by decide) (by decide) (by decide) (by decide)
    (by decide)

/-- C5.  For a response whose declared `Content-Length` exceeds the
receive buffer's remaining capacity (here: exceeds the whole buffer), the
payload-fetch loop stops at the capacity bound: the call completes with
`Ok` — no error signals the truncation — and the payload slice has length
`min(Content-Length, rx_buf.len())`, never exceeding the buffer length. -/
theorem claim_C5 {f : Nat} {c : Conn} {buf H B : List Nat} {st : HdrState}
    (hdata : c.rdata = H ++ B)
    (hs : okSched c.rres = true)
    (hfirst : find_sequence H (ascii "\r\n\r\n") = .ok (some (H.length - 4)))
    (hHbuf : H.length ≤ buf.length)
    (hparse : parseHeader H = .ok st)
    (hB : B.length = st.content_length)
    (hbig : buf.length < st.content_length)
    (hf : buf.length + 1 ≤ f) :
    (read_response f c buf).1 =
      .ok ⟨st.status, st.content_type, some (B.take buf.length)⟩ ∧
    (B.take buf.length).length = min st.content_length buf.length := by
  obtain ⟨c1, hres⟩ := read_response_run hdata hs hfirst hHbuf hparse hB hf
  have hcl : ¬ st.content_length = 0 := by omega
  have hmin : min st.content_length buf.length = buf.length := by omega
  rw [if_neg hcl, hmin] at hres
  refine ⟨by rw [hres], ?_⟩
  rw [List.length_take, hmin]
  omega

/-- C5, witness: a 40-byte header declaring `Content-Length: 100` with a
100-byte body, decoded into a 45-byte buffer: the payload is the first 45
body bytes and no error is raised. -/
theorem claim_C5_witness :
    (read_response 46
      ⟨[], [], 0,
        ascii "HTTP/1.1 200 OK\r\nContent-Length: 100\r\n\r\n" ++
          List.replicate 100 66, [], 0⟩
      (List.replicate 45 0)).1 =
      .ok ⟨Status.Ok, none, some ((List.replicate 100 66).take 45)⟩ ∧
    ((List.replicate 100 66).take 45).length = min 100 45 :=
  @claim_C5 46
    ⟨[], [], 0,
      ascii "HTTP/1.1 200 OK\r\nContent-Length: 100\r\n\r\n" ++
        List.replicate 100 66, [], 0⟩
    (List.replicate 45 0) (ascii "HTTP/1.1 200 OK\r\nContent-Length: 100\r\n\r\n")
    (List.replicate 100 66) ⟨Status.Ok, none, 100⟩
    (by decide) (by decide) (by decide) (by decide) (by decide) (by decide)
    (by decide) (by decide)

/-! ### Claim C7: a transport write error aborts the request -/

theorem getD_drop (l : List (Option Nat)) (n i : Nat) :
    (l.drop n).getD i none = l.getD (n + i) none := by
  rw [List.getD_eq_getElem?_getD, List.getD_eq_getElem?_getD, List.getElem?_drop]

/-- A no-write step satisfies the write-step specification. -/
theorem wstep_pure (c : Conn) : wstep c (none, c) := by
  refine ⟨rfl, rfl, rfl, Nat.le_refl _, ?_, ?_⟩
  · rw [Nat.sub_self, List.drop_zero]
  · intro i hi
    simp at hi

/-- A pure `Codec` failure (bounded-formatting overflow) issues no
write. -/
theorem wstep_codec (c : Conn) : wstep c (some Error.codec, c) := by
  refine ⟨rfl, rfl, rfl, Nat.le_refl _, ?_, ?_⟩
  · rw [Nat.sub_self, List.drop_zero]
  · intro i hi
    simp at hi

/-- A single transport write satisfies the write-step specification. -/
theorem wstep_write_data (c : Conn) (d : List Nat) : wstep c (write_data c d) := by
  unfold wstep write_data connWrite
  match hw : c.wres with
  | [] =>
    simp only []
    refine ⟨by trivial, by trivial, by trivial, by omega, ?_, ?_⟩
    · rw [show c.nw + 1 - c.nw = 1 by omega]
      rfl
    · intro i hi
      rw [show c.nw + 1 - c.nw = 1 by omega] at hi
      have h0 : i = 0 := by omega
      subst h0
      rfl
  | none :: rest =>
    simp only []
    refine ⟨by trivial, by trivial, by trivial, by omega, ?_, ?_⟩
    · rw [show c.nw + 1 - c.nw = 1 by omega]
      rfl
    · intro i hi
      rw [show c.nw + 1 - c.nw = 1 by omega] at hi
      have h0 : i = 0 := by omega
      subst h0
      rfl
  | some e :: rest =>
    simp only []
    refine ⟨by trivial, by trivial, by trivial, by omega, ?_, ?_⟩
    · rw [show c.nw + 1 - c.nw = 1 by omega]
      rfl
    · refine ⟨by omega, ?_, ?_⟩
      · intro i hi
        omega
      · rw [show c.nw + 1 - c.nw - 1 = 0 by omega]
        rfl

/-- The write-step specification is closed under `wthen` sequencing. -/
theorem wstep_then {c : Conn} {r : Option Error × Conn}
    {g : Conn → Option Error × Conn}
    (h1 : wstep c r) (h2 : ∀ c2, wstep c2 (g c2)) : wstep c (wthen r g) := by
  rcases r with ⟨e1, c2⟩
  cases e1 with
  | some e => exact h1
  | none =>
    obtain ⟨a1, a2, a3, a4, a5, a6⟩ := h1
    replace a1 : c2.nr = c.nr := a1
    replace a2 : c2.rdata = c.rdata := a2
    replace a3 : c2.rres = c.rres := a3
    replace a4 : c.nw ≤ c2.nw := a4
    replace a5 : c2.wres = c.wres.drop (c2.nw - c.nw) := a5
    replace a6 : ∀ i, i < c2.nw - c.nw → c.wres.getD i none = none := a6
    obtain ⟨b1, b2, b3, b4, b5, b6⟩ := h2 c2
    show wstep c (g c2)
    have key : ∀ i, c2.wres.getD i none = c.wres.getD (c2.nw - c.nw + i) none := by
      intro i
      rw [a5, getD_drop]
    refine ⟨b1.trans a1, b2.trans a2, b3.trans a3, Nat.le_trans a4 b4, ?_, ?_⟩
    · rw [b5, a5, List.drop_drop]
      congr 1
      omega
    · cases hg : (g c2).1 with
      | none =>
        rw [hg] at b6
        simp only [] at b6
        intro i hi
        by_cases hilt : i < c2.nw - c.nw
        · exact a6 i hilt
        · rw [show i = c2.nw - c.nw + (i - (c2.nw - c.nw)) by omega, ← key]
          exact b6 _ (by omega)
      | some er =>
        cases er with
        | network e =>
          rw [hg] at b6
          simp only [] at b6
          obtain ⟨bb1, bb2, bb3⟩ := b6
          refine ⟨by omega, ?_, ?_⟩
          · intro i hi
            by_cases hilt : i < c2.nw - c.nw
            · exact a6 i hilt
            · rw [show i = c2.nw - c.nw + (i - (c2.nw - c.nw)) by omega, ← key]
              exact bb2 _ (by omega)
          · rw [show (g c2).2.nw - c.nw - 1 =
                c2.nw - c.nw + ((g c2).2.nw - c2.nw - 1) by omega, ← key]
            exact bb3
        | codec =>
          rw [hg] at b6
          simp only [] at b6
          intro i hi
          by_cases hilt : i < c2.nw - c.nw
          · exact a6 i hilt
          · rw [show i = c2.nw - c.nw + (i - (c2.nw - c.nw)) by omega, ← key]
            exact b6 _ (by omega)

theorem wstep_write_header (c : Conn) (k v : List Nat) :
    wstep c (write_header c k v) :=
  wstep_then (wstep_write_data c k) fun c2 =>
    wstep_then (wstep_write_data c2 (ascii ": ")) fun c3 =>
      wstep_then (wstep_write_data c3 v) fun c4 =>
        wstep_write_data c4 (ascii "\r\n")

theorem wstep_writeHeaders :
    ∀ (l : List (List Nat × List Nat)) (c : Conn), wstep c (writeHeaders c l)
  | [], c => wstep_pure c
  | (k, v) :: rest, c =>
    wstep_then (wstep_write_header c k v) fun c2 => wstep_writeHeaders rest c2

theorem wstep_writeAuth (c : Conn) (a : Option Auth) : wstep c (writeAuth c a) := by
  cases a with
  | none => exact wstep_pure c
  | some au =>
    cases au with
    | basic u p =>
      unfold writeAuth
      simp only []
      split
      · exact wstep_then (wstep_write_data c _) fun c2 =>
          wstep_then (wstep_write_data c2 _) fun c3 => wstep_write_data c3 _
      · exact wstep_codec c

theorem wstep_writeContentType (c : Conn) (ct : Option (List Nat)) :
    wstep c (writeContentType c ct) := by
  cases ct with
  | none => exact wstep_pure c
  | some v => exact wstep_write_header c _ v

theorem wstep_writeContentLength (c : Conn) (p : Option (List Nat)) :
    wstep c (writeContentLength c p) := by
  cases p with
  | none => exact wstep_pure c
  | some pl =>
    unfold writeContentLength
    simp only []
    split
    · exact wstep_write_header c _ _
    · exact wstep_codec c

/-- The whole header-encoding phase of `request` is a write-only step. -/
theorem wstep_requestHead (req : Request) (host : List Nat) (c : Conn) :
    wstep c (requestHead req host c) :=
  wstep_then (wstep_write_data c _) fun c1 =>
  wstep_then (wstep_write_data c1 _) fun c2 =>
  wstep_then (wstep_write_data c2 _) fun c3 =>
  wstep_then (wstep_write_data c3 _) fun c4 =>
  wstep_then (wstep_write_header c4 _ _) fun c5 =>
  wstep_then (wstep_writeAuth c5 _) fun c6 =>
  wstep_then (wstep_writeContentType c6 _) fun c7 =>
  wstep_then (wstep_writeContentLength c7 _) fun c8 =>
  wstep_then (wstep_writeHeaders _ c8) fun c9 =>
  wstep_write_data c9 _

/-- One write consumes exactly one outcome slot; its outcome is the head
of the schedule (success when the schedule is exhausted). -/
theorem connWrite_spec {c : Conn} {d : List Nat} {we : Option Nat} {c2 : Conn}
    (h : connWrite c d = (we, c2)) :
    c2.nw = c.nw + 1 ∧ c2.nr = c.nr ∧ c2.rdata = c.rdata ∧ c2.rres = c.rres ∧
    c2.wres = c.wres.drop 1 ∧ we = c.wres.getD 0 none := by
  unfold connWrite at h
  match hw : c.wres with
  | [] =>
    rw [hw] at h
    simp only [Prod.mk.injEq] at h
    rw [← h.2, ← h.1]
    exact ⟨rfl, rfl, rfl, rfl, rfl, rfl⟩
  | none :: rest =>
    rw [hw] at h
    simp only [Prod.mk.injEq] at h
    rw [← h.2, ← h.1]
    exact ⟨rfl, rfl, rfl, rfl, rfl, rfl⟩
  | some e2 :: rest =>
    rw [hw] at h
    simp only [Prod.mk.injEq] at h
    rw [← h.2, ← h.1]
    exact ⟨rfl, rfl, rfl, rfl, rfl, rfl⟩

/-- C7.  If any transport write issued while encoding the request — the
request line, a header, the blank line, or the payload — returns an error
(`n` earlier writes succeeded, the `n+1`-st and last issued write failed
with kind `e`), the call aborts with that error mapped to the `Network`
variant, and no response reading is attempted (the read counter is
untouched). -/
theorem claim_C7 {fuel : Nat} {req : Request} {host : List Nat} {c : Conn}
    {buf : List Nat} {n : Nat} {e : Nat}
    (hn : c.wres.getD n none = some e)
    (hcount : (request fuel req host c buf).2.nw = c.nw + n + 1) :
    (request fuel req host c buf).1 = .err (.network e) ∧
    (request fuel req host c buf).2.nr = c.nr := by
  have hw := wstep_requestHead req host c
  rcases hh : requestHead req host c with ⟨r, c1⟩
  rw [hh] at hw
  obtain ⟨a1, a2, a3, a4, a5, a6⟩ := hw
  replace a1 : c1.nr = c.nr := a1
  replace a4 : c.nw ≤ c1.nw := a4
  replace a5 : c1.wres = c.wres.drop (c1.nw - c.nw) := a5
  unfold request at hcount ⊢
  rw [hh] at hcount ⊢
  cases r with
  | some err =>
    simp only [] at hcount ⊢
    cases err with
    | network e2 =>
      replace a6 : 1 ≤ c1.nw - c.nw ∧
          (∀ i, i < c1.nw - c.nw - 1 → c.wres.getD i none = none) ∧
          c.wres.getD (c1.nw - c.nw - 1) none = some e2 := a6
      obtain ⟨b1, b2, b3⟩ := a6
      have he2 : e2 = e := by
        rw [show c1.nw - c.nw - 1 = n by omega, hn] at b3
        exact (Option.some.inj b3).symm
      rw [he2]
      exact ⟨rfl, a1⟩
    | codec =>
      replace a6 : ∀ i, i < c1.nw - c.nw → c.wres.getD i none = none := a6
      exfalso
      have hx := a6 n (by omega)
      rw [hn] at hx
      cases hx
  | none =>
    replace a6 : ∀ i, i < c1.nw - c.nw → c.wres.getD i none = none := a6
    simp only [] at hcount ⊢
    cases hp : req.payload with
    | none =>
      rw [hp] at hcount
      try simp only [] at hcount
      rcases hrr : read_response fuel c1 buf with ⟨rr, c9⟩
      rw [hrr] at hcount
      replace hcount : c9.nw = c.nw + n + 1 := hcount
      obtain ⟨w1, w2, w3⟩ := read_response_snd_w hrr
      exfalso
      have hx := a6 n (by omega)
      rw [hn] at hx
      cases hx
    | some p =>
      rw [hp] at hcount
      try simp only [] at hcount
      try simp only []
      rcases hcw : connWrite c1 p with ⟨we, c2⟩
      rw [hcw] at hcount
      obtain ⟨s1, s2, s3, s4, s5, s6⟩ := connWrite_spec hcw
      cases we with
      | none =>
        try simp only [] at hcount
        try simp only []
        rcases hrr : read_response fuel c2 buf with ⟨rr, c9⟩
        rw [hrr] at hcount
        replace hcount : c9.nw = c.nw + n + 1 := hcount
        obtain ⟨w1, w2, w3⟩ := read_response_snd_w hrr
        exfalso
        have hkey : c.wres.getD n none = none := by
          rw [show n = (c1.nw - c.nw) + 0 by omega, ← getD_drop, ← a5, ← s6]
        rw [hn] at hkey
        cases hkey
      | some e2 =>
        try simp only [] at hcount
        try simp only []
        replace hcount : c2.nw = c.nw + n + 1 := hcount
        have he2 : some e2 = some e := by
          rw [s6, a5, getD_drop, show c1.nw - c.nw + 0 = n by omega]
          exact hn
        rw [Option.some.inj he2]
        exact ⟨rfl, by rw [s2, a1]⟩

/-- C7, witness: a GET request whose very first transport write (the
method token) fails with error kind 7; the call returns
`Error::Network(7)` and issues no read. -/
theorem claim_C7_witness :
    (request 5 ⟨Method.GET, none, none, none, none, none⟩ (ascii "h")
      ⟨[], [some 7], 0, [], [], 0⟩ (List.replicate 4 0)).1 =
        .err (.network 7) ∧
    (request 5 ⟨Method.GET, none, none, none, none, none⟩ (ascii "h")
      ⟨[], [some 7], 0, [], [], 0⟩ (List.replicate 4 0)).2.nr = 0 :=
  claim_C7 (n := 0) (e := 7) (by decide) (by decide)

end Reqwless
